import Mathlib

/-!
# Verification of the `uvpad` texture-dilation core (`src/main.go`)

Shallow embedding of the two fill algorithms of `src/main.go`:

* `process_gimp_alg` — iterative neighbour averaging (IA): each pass fills every
  not-fully-opaque pixel from the snapshot of its fully-opaque 4-neighbours.
* `process_paint_net_alg` / `jumpFlood` / `processJumpFlood` — jump-flood
  propagation (JFP): a fixed schedule of passes propagating nearest-opaque-source
  candidates, parallelised over contiguous row ranges.

Modelling conventions:
* A pixel is four `Nat` channels (the Go code stores 8-bit bytes; Go's
  `uint8(e)` conversion is modelled as `e % 256`, and `color.RGBA()`'s 16-bit
  widening as multiplication by `257 = 0x101`, exactly as `uint32(c) * 0x101`).
* An image is its width, height and a total pixel function; the Go flat slices
  indexed by `y*width + x` become functions on coordinates `(x, y)`, with the
  Go index range `idx < width*height` corresponding to `x < width ∧ y < height`.
* Go `float64` distance arithmetic in `jumpFlood` only ever holds integers of
  magnitude at most `width² + height²`, far below 2⁵³, so every addition,
  multiplication and comparison is exact; it is embedded as `Int` arithmetic.
* `int(math.Ceil(math.Log2(m)))` for an integer `m ≥ 1` is the least `k` with
  `m ≤ 2^k` (for every raster dimension the float computation is exact enough
  to return this integer); it is embedded as the executable `ceilLog2`.
* `runtime.NumCPU()` is an environment value; it is threaded as the explicit
  parameter `numCpu`.
* A Go slice access out of range panics; a computation that panics is embedded
  as an `Option` that is `none`.
* The Go pass loop of `process_gimp_alg` (`for remaining > 0`) has no built-in
  bound, so the loop is embedded as the pass iteration `gimpIter`; the
  proposition `gimpTerminatesIn img n` states that the loop exits after
  exactly `n` passes.
-/

/-- One RGBA pixel as stored by `image.RGBA`: four 8-bit channels. -/
structure Pixel where
  r : Nat
  g : Nat
  b : Nat
  a : Nat
deriving DecidableEq

/-- The in-memory raster abstraction: width, height, per-pixel RGBA reads. -/
structure Img where
  width : Nat
  height : Nat
  px : Nat × Nat → Pixel

/-- All in-bounds channel values fit in a byte (true of every decoded image). -/
def Bounded (img : Img) : Prop :=
  ∀ x, x < img.width → ∀ y, y < img.height →
    (img.px (x, y)).r ≤ 255 ∧ (img.px (x, y)).g ≤ 255 ∧
    (img.px (x, y)).b ≤ 255 ∧ (img.px (x, y)).a ≤ 255

instance (img : Img) : Decidable (Bounded img) := by
  unfold Bounded; infer_instance

/-- The coordinates visited by the Go per-pixel loops (`y` outer, `x` inner),
in visiting order. -/
def coordList (w h : Nat) : List (Nat × Nat) :=
  (List.range h).flatMap fun y => (List.range w).map fun x => (x, y)

theorem mem_coordList {w h : Nat} {c : Nat × Nat} :
    c ∈ coordList w h ↔ c.1 < w ∧ c.2 < h := by
  cases c with
  | mk x y =>
    simp only [coordList, List.mem_flatMap, List.mem_map, List.mem_range]
    constructor
    · rintro ⟨y', hy', x', hx', hxy⟩
      cases hxy
      exact ⟨hx', hy'⟩
    · rintro ⟨hx, hy⟩
      exact ⟨y, hy, x, hx, rfl⟩

theorem nodup_coordList (w h : Nat) : (coordList w h).Nodup := by
  rw [coordList, List.nodup_flatMap]
  constructor
  · intro y _
    exact (List.nodup_range w).map fun a b hab => by simpa using hab
  · refine (List.pairwise_lt_range h).imp ?_
    intro a b hab
    intro c hca hcb
    simp only [List.mem_map, List.mem_range] at hca hcb
    obtain ⟨x1, _, rfl⟩ := hca
    obtain ⟨x2, _, h2⟩ := hcb
    cases h2
    exact absurd rfl hab.ne

/-- Neighbour coordinate from an `Int` offset (Go's `nx, ny := x+n.dx, y+n.dy`). -/
def nbrCoord (c : Nat × Nat) (d : Int × Int) : Nat × Nat :=
  (((c.1 : Int) + d.1).toNat, ((c.2 : Int) + d.2).toNat)

/-- Go's bounds check `nx >= 0 && nx < width && ny >= 0 && ny < height`. -/
def nbrInB (w h : Nat) (c : Nat × Nat) (d : Int × Int) : Bool :=
  decide (0 ≤ (c.1 : Int) + d.1) && decide ((c.1 : Int) + d.1 < (w : Int)) &&
  decide (0 ≤ (c.2 : Int) + d.2) && decide ((c.2 : Int) + d.2 < (h : Int))

theorem nbrInB_bounds {w h : Nat} {c : Nat × Nat} {d : Int × Int}
    (hb : nbrInB w h c d = true) : (nbrCoord c d).1 < w ∧ (nbrCoord c d).2 < h := by
  simp only [nbrInB, Bool.and_eq_true, decide_eq_true_eq] at hb
  simp only [nbrCoord]
  omega

/-! ## Iterative neighbour averaging (`process_gimp_alg`) -/

/-- The 4-connected neighbour offsets of the IA pass
(`{-1, 0}, {1, 0}, {0, -1}, {0, 1}`). -/
def iaNbrs : List (Int × Int) := [(-1, 0), (1, 0), (0, -1), (0, 1)]

/-- Accumulator of the IA neighbour-gathering loop (`r`, `g`, `b`, `count`). -/
structure Gather where
  r : Nat
  g : Nat
  b : Nat
  count : Nat
deriving DecidableEq

/-- One step of the gathering loop: an in-bounds neighbour whose 16-bit alpha
sample equals `0xffff` contributes its widened channel samples. -/
def gatherStep (w h : Nat) (snap : Nat × Nat → Pixel) (c : Nat × Nat)
    (acc : Gather) (d : Int × Int) : Gather :=
  if nbrInB w h c d then
    let p := snap (nbrCoord c d)
    if p.a * 257 = 65535 then
      ⟨acc.r + p.r * 257, acc.g + p.g * 257, acc.b + p.b * 257, acc.count + 1⟩
    else acc
  else acc

/-- The IA gathering loop over the four 4-connected neighbours. -/
def iaGather (w h : Nat) (snap : Nat × Nat → Pixel) (c : Nat × Nat) : Gather :=
  iaNbrs.foldl (gatherStep w h snap c) ⟨0, 0, 0, 0⟩

/-- The filled pixel: `uint8((sum/count) >> 8)` per channel, alpha forced 255. -/
def iaFillPixel (gth : Gather) : Pixel :=
  ⟨((gth.r / gth.count) >>> 8) % 256, ((gth.g / gth.count) >>> 8) % 256,
    ((gth.b / gth.count) >>> 8) % 256, 255⟩

/-- State of the IA loop: the current raster and Go's `remaining` counter. -/
structure IASt where
  grid : Nat × Nat → Pixel
  rem : Nat

/-- Body of the per-pixel loop of an IA pass: pixels whose snapshot alpha byte
is not 255 and which have at least one gathered neighbour are overwritten in
the write target and decrement `remaining`; all others are left as they are. -/
def gimpStep (w h : Nat) (snap : Nat × Nat → Pixel) (acc : IASt) (c : Nat × Nat) : IASt :=
  if (snap c).a ≠ 255 then
    let gth := iaGather w h snap c
    if 0 < gth.count then
      ⟨Function.update acc.grid c (iaFillPixel gth), acc.rem - 1⟩
    else acc
  else acc

/-- One IA pass: `tempImg` starts as a copy of the snapshot, every pixel is
visited in order, and reads only consult the snapshot (`output`/`rgba`), which
is unchanged for the duration of the pass. -/
def gimpPass (w h : Nat) (st : IASt) : IASt :=
  (coordList w h).foldl (gimpStep w h st.grid) ⟨st.grid, st.rem⟩

/-- Go's initial count of pixels whose 16-bit alpha sample is not `0xffff`. -/
def countTransparent (img : Img) : Nat :=
  (coordList img.width img.height).countP fun c => decide ((img.px c).a * 257 ≠ 65535)

/-- Initial IA state: a copy of the input and the transparent-pixel count. -/
def gimpInit (img : Img) : IASt := ⟨img.px, countTransparent img⟩

/-- The IA state after `n` passes. -/
def gimpIter (img : Img) : Nat → IASt
  | 0 => gimpInit img
  | n + 1 => gimpPass img.width img.height (gimpIter img n)

/-- The Go loop `for remaining > 0 { … }` exits after exactly `n` passes. -/
def gimpTerminatesIn (img : Img) (n : Nat) : Prop :=
  (gimpIter img n).rem = 0 ∧ ∀ m < n, (gimpIter img m).rem ≠ 0

/-- The value a single IA pass leaves at a pixel, as a function of the
pass-start snapshot alone. -/
def iaCellOut (w h : Nat) (snap : Nat × Nat → Pixel) (c : Nat × Nat) : Pixel :=
  if (snap c).a ≠ 255 then
    if 0 < (iaGather w h snap c).count then iaFillPixel (iaGather w h snap c)
    else snap c
  else snap c

/-- Whether a pass overwrites the pixel at `c` (and decrements `remaining`). -/
def iaFillsB (w h : Nat) (snap : Nat × Nat → Pixel) (c : Nat × Nat) : Bool :=
  decide ((snap c).a ≠ 255) && decide (0 < (iaGather w h snap c).count)

/-! ### Pointwise semantics of one IA pass

The pass writes only into `tempImg` while every read (the alpha test and the
neighbour gathering) consults the pass-start snapshot, so the value left at a
pixel is a function of the snapshot alone — updates within a pass are
simultaneous and independent of the traversal order. -/

theorem gimpFold_spec (w h : Nat) (snap : Nat × Nat → Pixel) :
    ∀ l : List (Nat × Nat), l.Nodup →
      ∀ (g0 : Nat × Nat → Pixel) (r0 : Nat), (∀ c ∈ l, g0 c = snap c) →
        (∀ c, (l.foldl (gimpStep w h snap) ⟨g0, r0⟩).grid c =
            if c ∈ l then iaCellOut w h snap c else g0 c) ∧
          (l.foldl (gimpStep w h snap) ⟨g0, r0⟩).rem
            = r0 - l.countP (iaFillsB w h snap) := by
  intro l
  induction l with
  | nil =>
    intro _ g0 r0 _
    refine ⟨fun c => by simp, by simp⟩
  | cons c t ih =>
    intro hnd g0 r0 hag
    have hct : c ∉ t := (List.nodup_cons.mp hnd).1
    have hndt : t.Nodup := (List.nodup_cons.mp hnd).2
    rw [List.foldl_cons]
    by_cases hα : (snap c).a ≠ 255
    · by_cases hcnt : 0 < (iaGather w h snap c).count
      · -- the pixel is filled
        have hstep : gimpStep w h snap ⟨g0, r0⟩ c
            = ⟨Function.update g0 c (iaFillPixel (iaGather w h snap c)), r0 - 1⟩ := by
          rw [gimpStep, if_pos hα, if_pos hcnt]
        have hfill : iaFillsB w h snap c = true := by
          simp [iaFillsB, hα, hcnt]
        have hcell : iaCellOut w h snap c = iaFillPixel (iaGather w h snap c) := by
          rw [iaCellOut, if_pos hα, if_pos hcnt]
        rw [hstep]
        have hag' : ∀ c' ∈ t, Function.update g0 c (iaFillPixel (iaGather w h snap c)) c'
            = snap c' := by
          intro c' hc'
          rw [Function.update_noteq (fun hne => hct (by rwa [hne] at hc')),
            hag c' (List.mem_cons_of_mem c hc')]
        obtain ⟨ihg, ihr⟩ := ih hndt _ (r0 - 1) hag'
        constructor
        · intro c'
          rw [ihg c']
          by_cases hmem : c' ∈ t
          · rw [if_pos hmem, if_pos (List.mem_cons_of_mem c hmem)]
          · rw [if_neg hmem]
            by_cases hec : c' = c
            · subst hec
              rw [if_pos (List.mem_cons_self c' t), Function.update_same, hcell]
            · rw [Function.update_noteq hec, if_neg (by simp [hec, hmem])]
        · rw [ihr, List.countP_cons, hfill, if_pos rfl]
          omega
      · -- transparent but no opaque neighbour: untouched
        have hstep : gimpStep w h snap ⟨g0, r0⟩ c = ⟨g0, r0⟩ := by
          rw [gimpStep, if_pos hα, if_neg hcnt]
        have hfill : iaFillsB w h snap c = false := by
          simp [iaFillsB, hα, hcnt]
        have hcell : iaCellOut w h snap c = snap c := by
          rw [iaCellOut, if_pos hα, if_neg hcnt]
        rw [hstep]
        obtain ⟨ihg, ihr⟩ := ih hndt g0 r0 fun c' hc' => hag c' (List.mem_cons_of_mem c hc')
        constructor
        · intro c'
          rw [ihg c']
          by_cases hmem : c' ∈ t
          · rw [if_pos hmem, if_pos (List.mem_cons_of_mem c hmem)]
          · rw [if_neg hmem]
            by_cases hec : c' = c
            · subst hec
              rw [if_pos (List.mem_cons_self c' t), hcell, hag c' (List.mem_cons_self c' t)]
            · rw [if_neg (by simp [hec, hmem])]
        · rw [ihr, List.countP_cons, hfill]
          simp
    · -- already opaque: untouched
      have hstep : gimpStep w h snap ⟨g0, r0⟩ c = ⟨g0, r0⟩ := by
        rw [gimpStep, if_neg hα]
      have hfill : iaFillsB w h snap c = false := by
        simp only [iaFillsB]
        simp only [ne_eq, not_not] at hα
        simp [hα]
      have hcell : iaCellOut w h snap c = snap c := by
        rw [iaCellOut, if_neg hα]
      rw [hstep]
      obtain ⟨ihg, ihr⟩ := ih hndt g0 r0 fun c' hc' => hag c' (List.mem_cons_of_mem c hc')
      constructor
      · intro c'
        rw [ihg c']
        by_cases hmem : c' ∈ t
        · rw [if_pos hmem, if_pos (List.mem_cons_of_mem c hmem)]
        · rw [if_neg hmem]
          by_cases hec : c' = c
          · subst hec
            rw [if_pos (List.mem_cons_self c' t), hcell, hag c' (List.mem_cons_self c' t)]
          · rw [if_neg (by simp [hec, hmem])]
      · rw [ihr, List.countP_cons, hfill]
        simp

theorem gimpPass_grid_in (w h : Nat) (st : IASt) {c : Nat × Nat}
    (hc : c.1 < w ∧ c.2 < h) :
    (gimpPass w h st).grid c = iaCellOut w h st.grid c := by
  have := (gimpFold_spec w h st.grid (coordList w h) (nodup_coordList w h)
    st.grid st.rem (fun _ _ => rfl)).1 c
  rw [gimpPass, this, if_pos (mem_coordList.mpr hc)]

theorem gimpPass_grid_notin (w h : Nat) (st : IASt) {c : Nat × Nat}
    (hc : ¬(c.1 < w ∧ c.2 < h)) :
    (gimpPass w h st).grid c = st.grid c := by
  have := (gimpFold_spec w h st.grid (coordList w h) (nodup_coordList w h)
    st.grid st.rem (fun _ _ => rfl)).1 c
  rw [gimpPass, this, if_neg (fun hmem => hc (mem_coordList.mp hmem))]

theorem gimpPass_rem (w h : Nat) (st : IASt) :
    (gimpPass w h st).rem = st.rem - (coordList w h).countP (iaFillsB w h st.grid) :=
  (gimpFold_spec w h st.grid (coordList w h) (nodup_coordList w h)
    st.grid st.rem (fun _ _ => rfl)).2

/-! ### The gathering loop -/

theorem gather_foldl_count (w h : Nat) (snap : Nat × Nat → Pixel) (c : Nat × Nat) :
    ∀ (l : List (Int × Int)) (acc : Gather),
      (l.foldl (gatherStep w h snap c) acc).count
        = acc.count + l.countP fun d =>
            nbrInB w h c d && decide ((snap (nbrCoord c d)).a * 257 = 65535) := by
  intro l
  induction l with
  | nil => intro acc; simp
  | cons d t ih =>
    intro acc
    rw [List.foldl_cons, ih, List.countP_cons]
    rw [gatherStep]
    by_cases hin : nbrInB w h c d
    · by_cases hop : (snap (nbrCoord c d)).a * 257 = 65535
      · rw [if_pos hin, if_pos hop]
        simp [hin, hop]
        omega
      · rw [if_pos hin, if_neg hop]
        simp [hin, hop]
    · rw [if_neg hin]
      simp only [Bool.not_eq_true] at hin
      simp [hin]

theorem iaGather_count_pos (w h : Nat) (snap : Nat × Nat → Pixel) (c : Nat × Nat) :
    0 < (iaGather w h snap c).count ↔
      ∃ d ∈ iaNbrs, nbrInB w h c d = true ∧ (snap (nbrCoord c d)).a = 255 := by
  rw [iaGather, gather_foldl_count]
  simp only [Nat.zero_add, List.countP_pos_iff, Bool.and_eq_true, decide_eq_true_eq]
  constructor
  · rintro ⟨d, hd, hin, hop⟩
    exact ⟨d, hd, hin, by omega⟩
  · rintro ⟨d, hd, hin, hop⟩
    exact ⟨d, hd, hin, by omega⟩

theorem iaCellOut_alpha (w h : Nat) (snap : Nat × Nat → Pixel) (c : Nat × Nat) :
    (iaCellOut w h snap c).a = 255 ↔
      ((snap c).a = 255 ∨ 0 < (iaGather w h snap c).count) := by
  rw [iaCellOut]
  by_cases hα : (snap c).a ≠ 255
  · by_cases hcnt : 0 < (iaGather w h snap c).count
    · rw [if_pos hα, if_pos hcnt]
      simp [iaFillPixel, hcnt]
    · rw [if_pos hα, if_neg hcnt]
      simp [hα, hcnt]
  · rw [if_neg hα]
    simp only [ne_eq, not_not] at hα
    simp [hα]

/-! ### The `remaining` counter counts the not-fully-opaque pixels -/

/-- In-bounds test used throughout: the pixel's alpha byte is not 255. -/
def nonOpaqueB (g : Nat × Nat → Pixel) (c : Nat × Nat) : Bool :=
  decide ((g c).a ≠ 255)

theorem countP_split {α : Type} (q r p : α → Bool) :
    ∀ l : List α, (∀ c ∈ l, p c = (q c || r c) ∧ ¬(q c = true ∧ r c = true)) →
      l.countP p = l.countP q + l.countP r := by
  intro l
  induction l with
  | nil => intro _; simp
  | cons c t ih =>
    intro hl
    obtain ⟨hpc, hqr⟩ := hl c (List.mem_cons_self c t)
    rw [List.countP_cons, List.countP_cons, List.countP_cons,
      ih fun c' hc' => hl c' (List.mem_cons_of_mem c hc'), hpc]
    generalize t.countP q = A
    generalize t.countP r = B
    cases hq : q c <;> cases hr : r c <;> simp [hq, hr] at hqr ⊢ <;> omega

theorem countTransparent_eq (img : Img) :
    countTransparent img
      = (coordList img.width img.height).countP (nonOpaqueB img.px) := by
  rw [countTransparent]
  apply List.countP_congr
  intro c _
  have halt : ((img.px c).a * 257 ≠ 65535) ↔ ((img.px c).a ≠ 255) := by omega
  simp [nonOpaqueB, halt]

theorem gimpIter_rem_eq (img : Img) :
    ∀ k, (gimpIter img k).rem
      = (coordList img.width img.height).countP (nonOpaqueB (gimpIter img k).grid) := by
  intro k
  induction k with
  | zero => exact countTransparent_eq img
  | succ k ih =>
    have hsplit : (coordList img.width img.height).countP (nonOpaqueB (gimpIter img k).grid)
        = (coordList img.width img.height).countP (nonOpaqueB (gimpIter img (k+1)).grid)
          + (coordList img.width img.height).countP (iaFillsB img.width img.height (gimpIter img k).grid) := by
      apply countP_split
      intro c hc
      have hcb := mem_coordList.mp hc
      have hgrid : (gimpIter img (k+1)).grid c
          = iaCellOut img.width img.height (gimpIter img k).grid c :=
        gimpPass_grid_in img.width img.height (gimpIter img k) hcb
      constructor
      · by_cases hα : ((gimpIter img k).grid c).a = 255
        · have : (gimpIter img (k+1)).grid c = (gimpIter img k).grid c := by
            rw [hgrid, iaCellOut, if_neg (by simpa using hα)]
          simp [nonOpaqueB, iaFillsB, hα, this]
        · by_cases hcnt : 0 < (iaGather img.width img.height (gimpIter img k).grid c).count
          · have : (gimpIter img (k+1)).grid c
                = iaFillPixel (iaGather img.width img.height (gimpIter img k).grid c) := by
              rw [hgrid, iaCellOut, if_pos hα, if_pos hcnt]
            simp [nonOpaqueB, iaFillsB, hα, hcnt, this, iaFillPixel]
          · have : (gimpIter img (k+1)).grid c = (gimpIter img k).grid c := by
              rw [hgrid, iaCellOut, if_pos hα, if_neg hcnt]
            simp [nonOpaqueB, iaFillsB, hα, hcnt, this]
      · rintro ⟨hq, hr⟩
        simp only [nonOpaqueB, iaFillsB, Bool.and_eq_true, decide_eq_true_eq] at hq hr
        rw [hgrid, iaCellOut, if_pos hr.1, if_pos hr.2] at hq
        simp [iaFillPixel] at hq
    have hrem : (gimpIter img (k+1)).rem
        = (gimpIter img k).rem
          - (coordList img.width img.height).countP (iaFillsB img.width img.height (gimpIter img k).grid) := by
      exact gimpPass_rem img.width img.height (gimpIter img k)
    rw [hrem, ih, hsplit]
    exact Nat.add_sub_cancel _ _

/-! ### 4-connected distance rings and IA convergence -/

/-- `opaqueWithinB img k c`: pixel `c` is within 4-connected distance `k` of an
initially opaque pixel (`k = 0`: `c` itself is opaque in the input). -/
def opaqueWithinB (img : Img) : Nat → Nat × Nat → Bool
  | 0, c => decide ((img.px c).a = 255)
  | k + 1, c => opaqueWithinB img k c ||
      iaNbrs.any fun d =>
        nbrInB img.width img.height c d && opaqueWithinB img k (nbrCoord c d)

theorem opaqueWithinB_succ_of_self {img : Img} {k : Nat} {c : Nat × Nat}
    (hc : opaqueWithinB img k c = true) : opaqueWithinB img (k + 1) c = true := by
  simp [opaqueWithinB, hc]

theorem opaqueWithinB_mono {img : Img} {k m : Nat} {c : Nat × Nat} (hkm : k ≤ m)
    (hc : opaqueWithinB img k c = true) : opaqueWithinB img m c = true := by
  induction m with
  | zero =>
    have : k = 0 := Nat.le_zero.mp hkm
    exact this ▸ hc
  | succ m ih =>
    rcases Nat.lt_or_ge k (m + 1) with hlt | hge
    · exact opaqueWithinB_succ_of_self (ih (Nat.lt_succ_iff.mp hlt))
    · have : k = m + 1 := Nat.le_antisymm hkm hge
      exact this ▸ hc

theorem opaqueWithinB_succ_of_nbr {img : Img} {k : Nat} {c : Nat × Nat} {d : Int × Int}
    (hd : d ∈ iaNbrs) (hin : nbrInB img.width img.height c d = true)
    (hop : opaqueWithinB img k (nbrCoord c d) = true) :
    opaqueWithinB img (k + 1) c = true := by
  simp only [opaqueWithinB, Bool.or_eq_true, List.any_eq_true]
  exact Or.inr ⟨d, hd, by simp [hin, hop]⟩

/-- After `k` IA passes a pixel is fully opaque iff it is within 4-connected
distance `k` of an initially opaque pixel: each pass advances the opaque
region by exactly one ring. -/
theorem gimpIter_opaque_iff (img : Img) :
    ∀ (k : Nat) (c : Nat × Nat), c.1 < img.width → c.2 < img.height →
      ((((gimpIter img k).grid c).a = 255) ↔ opaqueWithinB img k c = true) := by
  intro k
  induction k with
  | zero =>
    intro c _ _
    simp [gimpIter, gimpInit, opaqueWithinB]
  | succ k ih =>
    intro c hc1 hc2
    have hgrid : (gimpIter img (k + 1)).grid c
        = iaCellOut img.width img.height (gimpIter img k).grid c :=
      gimpPass_grid_in img.width img.height (gimpIter img k) ⟨hc1, hc2⟩
    rw [hgrid, iaCellOut_alpha, iaGather_count_pos]
    simp only [opaqueWithinB, Bool.or_eq_true, List.any_eq_true, Bool.and_eq_true]
    constructor
    · rintro (hself | ⟨d, hd, hin, hop⟩)
      · exact Or.inl ((ih c hc1 hc2).mp hself)
      · obtain ⟨hb1, hb2⟩ := nbrInB_bounds hin
        exact Or.inr ⟨d, hd, hin, (ih (nbrCoord c d) hb1 hb2).mp hop⟩
    · rintro (hself | ⟨d, hd, hin, hop⟩)
      · exact Or.inl ((ih c hc1 hc2).mpr hself)
      · obtain ⟨hb1, hb2⟩ := nbrInB_bounds hin
        exact Or.inr ⟨d, hd, hin, (ih (nbrCoord c d) hb1 hb2).mpr hop⟩

/-- 4-connected (Manhattan) distance between two coordinates. -/
def manhattan (c q : Nat × Nat) : Nat :=
  ((c.1 : Int) - (q.1 : Int)).natAbs + ((c.2 : Int) - (q.2 : Int)).natAbs

/-- Any in-bounds pixel is within distance `manhattan c q` of an in-bounds
opaque pixel `q`: walk one axis-aligned step towards `q` at a time, staying
inside the raster. -/
theorem opaqueWithinB_of_opaque (img : Img) (q : Nat × Nat)
    (hq1 : q.1 < img.width) (hq2 : q.2 < img.height) (hqop : (img.px q).a = 255) :
    ∀ (n : Nat) (c : Nat × Nat), manhattan c q = n →
      c.1 < img.width → c.2 < img.height → opaqueWithinB img n c = true := by
  intro n
  induction n with
  | zero =>
    intro c hman _ _
    have hcq : c = q := by
      obtain ⟨cx, cy⟩ := c
      obtain ⟨qx, qy⟩ := q
      simp only [manhattan] at hman
      have h1 : cx = qx := by omega
      have h2 : cy = qy := by omega
      rw [h1, h2]
    rw [hcq]
    simp [opaqueWithinB, hqop]
  | succ n ih =>
    intro c hman hc1 hc2
    obtain ⟨cx, cy⟩ := c
    obtain ⟨qx, qy⟩ := q
    rcases Nat.lt_trichotomy cx qx with hx | hx | hx
    · -- step right
      refine opaqueWithinB_succ_of_nbr (d := (1, 0)) (by simp [iaNbrs]) ?_ (ih _ ?_ ?_ ?_)
      · simp only [nbrInB, Bool.and_eq_true, decide_eq_true_eq]
        omega
      · simp only [nbrCoord, manhattan] at hman ⊢
        omega
      · simp only [nbrCoord]
        omega
      · simp only [nbrCoord]
        omega
    · -- same column: step along y
      rcases Nat.lt_trichotomy cy qy with hy | hy | hy
      · refine opaqueWithinB_succ_of_nbr (d := (0, 1)) (by simp [iaNbrs]) ?_ (ih _ ?_ ?_ ?_)
        · simp only [nbrInB, Bool.and_eq_true, decide_eq_true_eq]
          omega
        · simp only [nbrCoord, manhattan] at hman ⊢
          omega
        · simp only [nbrCoord]
          omega
        · simp only [nbrCoord]
          omega
      · exfalso
        simp only [manhattan] at hman
        omega
      · refine opaqueWithinB_succ_of_nbr (d := (0, -1)) (by simp [iaNbrs]) ?_ (ih _ ?_ ?_ ?_)
        · simp only [nbrInB, Bool.and_eq_true, decide_eq_true_eq]
          omega
        · simp only [nbrCoord, manhattan] at hman ⊢
          omega
        · simp only [nbrCoord]
          omega
        · simp only [nbrCoord]
          omega
    · -- step left
      refine opaqueWithinB_succ_of_nbr (d := (-1, 0)) (by simp [iaNbrs]) ?_ (ih _ ?_ ?_ ?_)
      · simp only [nbrInB, Bool.and_eq_true, decide_eq_true_eq]
        omega
      · simp only [nbrCoord, manhattan] at hman ⊢
        omega
      · simp only [nbrCoord]
        omega
      · simp only [nbrCoord]
        omega

/-- Fuelled search for the least `k ≥ start` satisfying `P`; returns
`start + fuel` if none is found within the fuel. -/
def firstTrueAux (P : Nat → Bool) : Nat → Nat → Nat
  | k, 0 => k
  | k, fuel + 1 => if P k then k else firstTrueAux P (k + 1) fuel

theorem firstTrueAux_notlt (P : Nat → Bool) :
    ∀ (fuel k j : Nat), k ≤ j → j < firstTrueAux P k fuel → P j = false := by
  intro fuel
  induction fuel with
  | zero =>
    intro k j hkj hj
    exact absurd hj (by simp [firstTrueAux]; omega)
  | succ fuel ih =>
    intro k j hkj hj
    rw [firstTrueAux] at hj
    by_cases hPk : P k
    · rw [if_pos hPk] at hj
      omega
    · rw [if_neg hPk] at hj
      rcases Nat.eq_or_lt_of_le hkj with heq | hlt
      · rw [heq] at hPk
        simpa using hPk
      · exact ih (k + 1) j hlt hj

theorem firstTrueAux_true (P : Nat → Bool) :
    ∀ (fuel k m : Nat), k ≤ m → m < k + fuel → P m = true →
      P (firstTrueAux P k fuel) = true ∧ firstTrueAux P k fuel ≤ m := by
  intro fuel
  induction fuel with
  | zero =>
    intro k m hkm hm _
    omega
  | succ fuel ih =>
    intro k m hkm hm hPm
    rw [firstTrueAux]
    by_cases hPk : P k
    · rw [if_pos hPk]
      exact ⟨hPk, hkm⟩
    · rw [if_neg hPk]
      have hne : k ≠ m := fun heq => hPk (heq ▸ hPm)
      exact ih (k + 1) m (by omega) (by omega) hPm

/-- Fuel bound for the distance search: `width + height` strictly dominates the
Manhattan distance between any two in-bounds pixels. -/
def reachBound (img : Img) : Nat := img.width + img.height

/-- The 4-connected distance from `c` to the nearest initially opaque pixel
(the least `k` with `opaqueWithinB img k c`, searched up to `reachBound`). -/
def dist4 (img : Img) (c : Nat × Nat) : Nat :=
  firstTrueAux (fun k => opaqueWithinB img k c) 0 (reachBound img + 1)

theorem dist4_le {img : Img} {c : Nat × Nat} {k : Nat}
    (hk : opaqueWithinB img k c = true) : dist4 img c ≤ k := by
  by_contra hlt
  have := firstTrueAux_notlt (fun k => opaqueWithinB img k c)
    (reachBound img + 1) 0 k (Nat.zero_le k) (by rw [← dist4]; omega)
  simp only [this] at hk
  exact Bool.false_ne_true hk

theorem dist4_reaches {img : Img} {c : Nat × Nat}
    (hop : ∃ q, q.1 < img.width ∧ q.2 < img.height ∧ (img.px q).a = 255)
    (hc1 : c.1 < img.width) (hc2 : c.2 < img.height) :
    opaqueWithinB img (dist4 img c) c = true := by
  obtain ⟨q, hq1, hq2, hqa⟩ := hop
  have hreach : opaqueWithinB img (manhattan c q) c = true :=
    opaqueWithinB_of_opaque img q hq1 hq2 hqa (manhattan c q) c rfl hc1 hc2
  have hmlt : manhattan c q < 0 + (reachBound img + 1) := by
    simp only [manhattan, reachBound]
    omega
  exact (firstTrueAux_true (fun k => opaqueWithinB img k c)
    (reachBound img + 1) 0 (manhattan c q) (Nat.zero_le _) hmlt hreach).1

theorem opaque_iff_dist4_le (img : Img)
    (hop : ∃ q, q.1 < img.width ∧ q.2 < img.height ∧ (img.px q).a = 255)
    {c : Nat × Nat} (hc1 : c.1 < img.width) (hc2 : c.2 < img.height) (k : Nat) :
    opaqueWithinB img k c = true ↔ dist4 img c ≤ k := by
  constructor
  · exact dist4_le
  · intro hle
    exact opaqueWithinB_mono hle (dist4_reaches hop hc1 hc2)

/-- The not-fully-opaque pixels of the input, in visiting order. -/
def transparentCoords (img : Img) : List (Nat × Nat) :=
  (coordList img.width img.height).filter fun c => decide ((img.px c).a ≠ 255)

/-- `D`: the maximum 4-connected distance from any transparent pixel of the
input to its nearest opaque pixel (0 if there is no transparent pixel). -/
def gimpD (img : Img) : Nat :=
  ((transparentCoords img).map (dist4 img)).foldr max 0

theorem le_foldr_max (l : List Nat) : ∀ x ∈ l, x ≤ l.foldr max 0 := by
  induction l with
  | nil => intro x hx; cases hx
  | cons a t ih =>
    intro x hx
    rcases List.mem_cons.mp hx with rfl | hx
    · exact Nat.le_max_left _ _
    · exact Nat.le_trans (ih x hx) (Nat.le_max_right _ _)

theorem foldr_max_mem (l : List Nat) : l.foldr max 0 = 0 ∨ l.foldr max 0 ∈ l := by
  induction l with
  | nil => exact Or.inl rfl
  | cons a t ih =>
    simp only [List.foldr_cons]
    rcases Nat.le_total a (t.foldr max 0) with hle | hle
    · rw [Nat.max_eq_right hle]
      rcases ih with h0 | hmem
      · exact Or.inl h0
      · exact Or.inr (List.mem_cons_of_mem a hmem)
    · rw [Nat.max_eq_left hle]
      exact Or.inr (List.mem_cons_self a t)

theorem mem_transparentCoords {img : Img} {c : Nat × Nat} :
    c ∈ transparentCoords img ↔
      (c.1 < img.width ∧ c.2 < img.height) ∧ (img.px c).a ≠ 255 := by
  simp [transparentCoords, List.mem_filter, mem_coordList]

/-- With at least one opaque pixel the IA loop exits after exactly `gimpD`
passes. -/
theorem gimp_terminates (img : Img)
    (hop : ∃ q, q.1 < img.width ∧ q.2 < img.height ∧ (img.px q).a = 255) :
    gimpTerminatesIn img (gimpD img) := by
  constructor
  · rw [gimpIter_rem_eq]
    rw [List.countP_eq_zero]
    intro c hc
    obtain ⟨hc1, hc2⟩ := mem_coordList.mp hc
    simp only [nonOpaqueB, decide_eq_true_eq, ne_eq, not_not]
    rw [gimpIter_opaque_iff img (gimpD img) c hc1 hc2,
      opaque_iff_dist4_le img hop hc1 hc2]
    by_cases htr : (img.px c).a = 255
    · have h0 : opaqueWithinB img 0 c = true := by simp [opaqueWithinB, htr]
      exact Nat.le_trans (dist4_le h0) (Nat.zero_le _)
    · apply le_foldr_max
      exact List.mem_map.mpr ⟨c, mem_transparentCoords.mpr ⟨⟨hc1, hc2⟩, htr⟩, rfl⟩
  · intro m hm
    rcases foldr_max_mem ((transparentCoords img).map (dist4 img)) with h0 | hmem
    · rw [gimpD] at hm
      omega
    · obtain ⟨c, hctr, hcd⟩ := List.mem_map.mp hmem
      obtain ⟨⟨hc1, hc2⟩, hcα⟩ := mem_transparentCoords.mp hctr
      rw [gimpIter_rem_eq]
      intro hzero
      rw [List.countP_eq_zero] at hzero
      have hcop := hzero c (mem_coordList.mpr ⟨hc1, hc2⟩)
      simp only [nonOpaqueB, decide_eq_true_eq, ne_eq, not_not,
        Bool.not_eq_true, decide_eq_false_iff_not] at hcop
      have hα : ((gimpIter img m).grid c).a = 255 := by
        by_contra hne
        exact hne (by simpa using hcop)
      rw [gimpIter_opaque_iff img m c hc1 hc2,
        opaque_iff_dist4_le img hop hc1 hc2] at hα
      rw [gimpD] at hm
      omega

/-- An initially opaque pixel is never rewritten by any IA pass. -/
theorem gimpIter_opaque_fixed (img : Img) {c : Nat × Nat}
    (hc1 : c.1 < img.width) (hc2 : c.2 < img.height)
    (hop : (img.px c).a = 255) :
    ∀ k, (gimpIter img k).grid c = img.px c := by
  intro k
  induction k with
  | zero => rfl
  | succ k ih =>
    have hgrid : (gimpIter img (k + 1)).grid c
        = iaCellOut img.width img.height (gimpIter img k).grid c :=
      gimpPass_grid_in img.width img.height (gimpIter img k) ⟨hc1, hc2⟩
    rw [hgrid, iaCellOut, ih, if_neg (by simpa using hop)]

/-- Channel sums of the gathering loop when every gathered neighbour has the
same colour: the sums are `count` times the widened channel values. -/
theorem gather_foldl_const (w h : Nat) (snap : Nat × Nat → Pixel) (c : Nat × Nat)
    (cr cg cb : Nat) :
    ∀ (l : List (Int × Int)) (acc : Gather),
      (∀ d ∈ l, nbrInB w h c d = true → (snap (nbrCoord c d)).a = 255 →
        (snap (nbrCoord c d)).r = cr ∧ (snap (nbrCoord c d)).g = cg ∧
          (snap (nbrCoord c d)).b = cb) →
      acc.r = acc.count * (cr * 257) → acc.g = acc.count * (cg * 257) →
      acc.b = acc.count * (cb * 257) →
      (l.foldl (gatherStep w h snap c) acc).r
          = (l.foldl (gatherStep w h snap c) acc).count * (cr * 257) ∧
        (l.foldl (gatherStep w h snap c) acc).g
          = (l.foldl (gatherStep w h snap c) acc).count * (cg * 257) ∧
        (l.foldl (gatherStep w h snap c) acc).b
          = (l.foldl (gatherStep w h snap c) acc).count * (cb * 257) := by
  intro l
  induction l with
  | nil =>
    intro acc _ hr hg hb
    exact ⟨hr, hg, hb⟩
  | cons d t ih =>
    intro acc hall hr hg hb
    rw [List.foldl_cons]
    have htail : ∀ d' ∈ t, nbrInB w h c d' = true → (snap (nbrCoord c d')).a = 255 →
        (snap (nbrCoord c d')).r = cr ∧ (snap (nbrCoord c d')).g = cg ∧
          (snap (nbrCoord c d')).b = cb :=
      fun d' hd' => hall d' (List.mem_cons_of_mem d hd')
    rw [gatherStep]
    by_cases hin : nbrInB w h c d
    · by_cases hopa : (snap (nbrCoord c d)).a * 257 = 65535
      · rw [if_pos hin, if_pos hopa]
        have hα : (snap (nbrCoord c d)).a = 255 := by omega
        obtain ⟨hcr, hcg, hcb⟩ := hall d (List.mem_cons_self d t) hin hα
        refine ih _ htail ?_ ?_ ?_
        · simp only [hcr, hr]
          ring
        · simp only [hcg, hg]
          ring
        · simp only [hcb, hb]
          ring
      · rw [if_pos hin, if_neg hopa]
        exact ih acc htail hr hg hb
    · rw [if_neg hin]
      exact ih acc htail hr hg hb

/-- Filling from a gather whose sums are `count` copies of one byte colour
reproduces that colour exactly, with alpha forced to 255. -/
theorem iaFillPixel_const (gth : Gather) (cr cg cb : Nat)
    (hcr : cr ≤ 255) (hcg : cg ≤ 255) (hcb : cb ≤ 255) (hcnt : 0 < gth.count)
    (hr : gth.r = gth.count * (cr * 257)) (hg : gth.g = gth.count * (cg * 257))
    (hb : gth.b = gth.count * (cb * 257)) :
    iaFillPixel gth = ⟨cr, cg, cb, 255⟩ := by
  have hdiv : ∀ v : Nat, v ≤ 255 → gth.count * (v * 257) / gth.count = v * 257 := by
    intro v _
    rw [Nat.mul_div_cancel_left _ hcnt]
  have hch : ∀ v : Nat, v ≤ 255 → ((gth.count * (v * 257)) / gth.count) >>> 8 % 256 = v := by
    intro v hv
    rw [hdiv v hv, Nat.shiftRight_eq_div_pow]
    have hpow : (2 : Nat) ^ 8 = 256 := rfl
    rw [hpow]
    have h1 : v * 257 / 256 = v := by omega
    rw [h1]
    omega
  simp only [iaFillPixel, hr, hg, hb, hch cr hcr, hch cg hcg, hch cb hcb]

/-! ## Jump flood propagation
(`process_paint_net_alg`, `jumpFlood`, `processJumpFlood`) -/

/-- Go's `Point` struct: a nearest-source coordinate, `{-1, -1}` = unresolved. -/
structure Point where
  x : Int
  y : Int
deriving DecidableEq

/-- The two grids of `jumpFlood` (`distances` and `nearest`), as functions of
the pixel coordinate (Go index `y*width + x`). -/
abbrev JFGrids : Type := ((Nat × Nat) → Int) × ((Nat × Nat) → Point)

/-- The opaque mask built by `process_paint_net_alg`: all entries start false
and every in-bounds pixel with 16-bit alpha sample `0xffff` is set true. -/
def mkMask (img : Img) : Nat × Nat → Bool := fun c =>
  decide (c.1 < img.width) && decide (c.2 < img.height) &&
    decide ((img.px c).a * 257 = 65535)

/-- `maxDistance := float64(width*width + height*height)` (an exact integer). -/
def maxDistance (w h : Nat) : Int := ((w * w + h * h : Nat) : Int)

/-- Initial distance grid: 0 on the mask, `maxDistance` elsewhere. -/
def initDist (w h : Nat) (mask : Nat × Nat → Bool) : (Nat × Nat) → Int := fun c =>
  if mask c then 0 else maxDistance w h

/-- Initial nearest grid: the pixel itself on the mask, `{-1, -1}` elsewhere. -/
def initNearest (mask : Nat × Nat → Bool) : (Nat × Nat) → Point := fun c =>
  if mask c then ⟨c.1, c.2⟩ else ⟨-1, -1⟩

/-- The eight compass neighbours at offset `step`. -/
def jfNbrs (step : Int) : List (Int × Int) :=
  [(-step, -step), (0, -step), (step, -step),
   (-step, 0), (step, 0),
   (-step, step), (0, step), (step, step)]

/-- `distance := dx*dx + dy*dy` from pixel `c` to candidate source `q`
(the Go `float64` arithmetic is exact on these integers). -/
def sqDist (c : Nat × Nat) (q : Point) : Int :=
  ((c.1 : Int) - q.x) * ((c.1 : Int) - q.x) +
    ((c.2 : Int) - q.y) * ((c.2 : Int) - q.y)

/-- One neighbour test of the per-pixel loop of `processJumpFlood`: an
in-bounds neighbour whose previous-pass nearest source is resolved and whose
squared distance to this pixel strictly improves the current best replaces
the accumulator. -/
def jfCellStep (w h : Nat) (nC : (Nat × Nat) → Point) (c : Nat × Nat)
    (acc : Int × Point) (d : Int × Int) : Int × Point :=
  if nbrInB w h c d then
    if (nC (nbrCoord c d)).x ≠ -1 ∧ (nC (nbrCoord c d)).y ≠ -1 then
      if sqDist c (nC (nbrCoord c d)) < acc.1 then
        (sqDist c (nC (nbrCoord c d)), nC (nbrCoord c d))
      else acc
    else acc
  else acc

/-- Body of the per-pixel loop of `processJumpFlood`: starting from the
pixel's own previous-pass entry, fold over the eight neighbours.  Intermediate
improvements are written to `distances[idx]`/`nearest[idx]` in Go; since no
other pixel reads them during the pass, only the final value matters. -/
def jfCell (w h : Nat) (dC : (Nat × Nat) → Int) (nC : (Nat × Nat) → Point)
    (step : Int) (c : Nat × Nat) : Int × Point :=
  (jfNbrs step).foldl (jfCellStep w h nC c) (dC c, nC c)

/-- One worker's `x` loop over row `y`, writing each pixel's result into the
shared write grids (each pixel of the row is owned by this worker alone). -/
def jfRow (w h : Nat) (dC : (Nat × Nat) → Int) (nC : (Nat × Nat) → Point)
    (step : Int) (y : Nat) (gr : JFGrids) : JFGrids :=
  (List.range w).foldl (fun g x =>
    (Function.update g.1 (x, y) (jfCell w h dC nC step (x, y)).1,
     Function.update g.2 (x, y) (jfCell w h dC nC step (x, y)).2)) gr

/-- `processJumpFlood` for the row range `[start, e)`: reads go to the
pass-start copies `dC`/`nC`, writes to the shared grids.  A row `y ≥ height`
makes the very first slice access `distancesCopy[y*width+x]` go out of range
and panic (`none`) — unless `width = 0`, in which case the `x` loop is empty. -/
def processJumpFlood (w h : Nat) (dC : (Nat × Nat) → Int) (nC : (Nat × Nat) → Point)
    (gr : JFGrids) (step : Int) (start e : Nat) : Option JFGrids :=
  (List.range' start (e - start)).foldlM (fun g y =>
    if y < h then some (jfRow w h dC nC step y g)
    else if w = 0 then some g
    else none) gr

/-- `chunkSize := height / numCpu`, bumped to 1 when that is zero. -/
def chunkSize (height numCpu : Nat) : Nat :=
  if height / numCpu = 0 then 1 else height / numCpu

/-- `start := i * chunkSize` for worker `i`. -/
def chunkStart (height numCpu i : Nat) : Nat := i * chunkSize height numCpu

/-- `end := (i+1) * chunkSize`, overridden to `height` for the last worker. -/
def chunkEnd (height numCpu i : Nat) : Nat :=
  if i = numCpu - 1 then height else (i + 1) * chunkSize height numCpu

/-- One jump-flood pass: copies of both grids are taken, then every worker
processes its row range reading only those copies and writing only its own
rows, so any goroutine interleaving equals this sequential composition; a
worker that panics makes the whole pass `none`. -/
def jumpFloodPass (w h numCpu : Nat) (gr : JFGrids) (step : Int) : Option JFGrids :=
  (List.range numCpu).foldlM (fun g i =>
    processJumpFlood w h gr.1 gr.2 g step
      (chunkStart h numCpu i) (chunkEnd h numCpu i)) gr

/-- `int(math.Ceil(math.Log2(m)))` for an integer `m ≥ 1`: the least `k` with
`m ≤ 2^k` (and 0 for `m ≤ 1`). -/
def ceilLog2 (m : Nat) : Nat :=
  firstTrueAux (fun k => decide (m ≤ 2 ^ k)) 0 m

/-- `maxSteps := int(math.Ceil(math.Log2(max(w, h)))) * 2`. -/
def jfMaxSteps (w h : Nat) : Nat := 2 * ceilLog2 (max w h)

/-- The step values taken by the pass loop
`for step := 1; step < maxSteps; step++`: the list `[1, …, maxSteps-1]`. -/
def jfSteps (w h : Nat) : List Nat := List.range' 1 (jfMaxSteps w h - 1)

/-- The pass loop of `jumpFlood` over a given list of step values. -/
def jumpFloodSteps (w h numCpu : Nat) (gr : JFGrids) (steps : List Nat) :
    Option JFGrids :=
  steps.foldlM (fun g (step : Nat) => jumpFloodPass w h numCpu g (step : Int)) gr

/-- `jumpFlood`: initialise both grids from the mask, run the pass loop,
return the nearest grid. -/
def jumpFlood (w h numCpu : Nat) (mask : Nat × Nat → Bool) :
    Option ((Nat × Nat) → Point) :=
  (jumpFloodSteps w h numCpu (initDist w h mask, initNearest mask)
    (jfSteps w h)).map fun gr => gr.2

/-- The output raster of `process_paint_net_alg` given the nearest grid:
an opaque pixel is re-set to `{uint8(r), uint8(g), uint8(b), 255}` (16-bit
samples truncated to bytes); a transparent pixel with a resolved nearest
source copies that source's colour, `uint8(sample >> 8)` per channel, with
alpha 255; an unresolved transparent pixel becomes `{0, 0, 0, 0}`; outside
the bounds the `image.NewRGBA` zero pixel remains. -/
def jfpOut (img : Img) (near : (Nat × Nat) → Point) : (Nat × Nat) → Pixel := fun c =>
  if c.1 < img.width ∧ c.2 < img.height then
    if (img.px c).a * 257 = 65535 then
      ⟨(img.px c).r * 257 % 256, (img.px c).g * 257 % 256,
        (img.px c).b * 257 % 256, 255⟩
    else
      if (near c).x ≠ -1 ∧ (near c).y ≠ -1 then
        ⟨((img.px ((near c).x.toNat, (near c).y.toNat)).r * 257) >>> 8 % 256,
          ((img.px ((near c).x.toNat, (near c).y.toNat)).g * 257) >>> 8 % 256,
          ((img.px ((near c).x.toNat, (near c).y.toNat)).b * 257) >>> 8 % 256, 255⟩
      else ⟨0, 0, 0, 0⟩
  else ⟨0, 0, 0, 0⟩

/-- `process_paint_net_alg`, with `runtime.NumCPU()` as parameter `numCpu`. -/
def process_paint_net_alg (img : Img) (numCpu : Nat) :
    Option ((Nat × Nat) → Pixel) :=
  (jumpFlood img.width img.height numCpu (mkMask img)).map (jfpOut img)

/-! ### Pointwise semantics of one jump-flood pass

Workers read only the pass-start copies and write disjoint rows, so the grids
after a pass are a pointwise function of the pass-start grids. -/

theorem jfRowAux_apply (w h : Nat) (dC : (Nat × Nat) → Int)
    (nC : (Nat × Nat) → Point) (step : Int) (y : Nat) :
    ∀ (l : List Nat) (g : JFGrids) (c : Nat × Nat),
      ((l.foldl (fun g2 x =>
          (Function.update g2.1 (x, y) (jfCell w h dC nC step (x, y)).1,
           Function.update g2.2 (x, y) (jfCell w h dC nC step (x, y)).2)) g).1 c
        = if c.1 ∈ l ∧ c.2 = y then (jfCell w h dC nC step c).1 else g.1 c) ∧
      ((l.foldl (fun g2 x =>
          (Function.update g2.1 (x, y) (jfCell w h dC nC step (x, y)).1,
           Function.update g2.2 (x, y) (jfCell w h dC nC step (x, y)).2)) g).2 c
        = if c.1 ∈ l ∧ c.2 = y then (jfCell w h dC nC step c).2 else g.2 c) := by
  intro l
  induction l with
  | nil =>
    intro g c
    simp
  | cons x t ih =>
    intro g c
    rw [List.foldl_cons]
    obtain ⟨ih1, ih2⟩ := ih
      (Function.update g.1 (x, y) (jfCell w h dC nC step (x, y)).1,
       Function.update g.2 (x, y) (jfCell w h dC nC step (x, y)).2) c
    rw [ih1, ih2]
    dsimp only
    by_cases hmem : c.1 ∈ t ∧ c.2 = y
    · have hc : c.1 ∈ x :: t ∧ c.2 = y := ⟨List.mem_cons_of_mem x hmem.1, hmem.2⟩
      rw [if_pos hmem, if_pos hmem, if_pos hc, if_pos hc]
      exact ⟨rfl, rfl⟩
    · rw [if_neg hmem, if_neg hmem]
      by_cases hxy : c = (x, y)
      · subst hxy
        have hc : ((x, y) : Nat × Nat).1 ∈ x :: t ∧ ((x, y) : Nat × Nat).2 = y :=
          ⟨List.mem_cons_self x t, rfl⟩
        rw [if_pos hc, if_pos hc, Function.update_same, Function.update_same]
        exact ⟨rfl, rfl⟩
      · have hnotc : ¬(c.1 ∈ x :: t ∧ c.2 = y) := by
          rintro ⟨hc1, hc2⟩
          rcases List.mem_cons.mp hc1 with heq | hmem'
          · exact hxy (Prod.ext heq hc2)
          · exact hmem ⟨hmem', hc2⟩
        rw [if_neg hnotc, if_neg hnotc, Function.update_noteq hxy, Function.update_noteq hxy]
        exact ⟨rfl, rfl⟩

theorem jfRow_apply (w h : Nat) (dC : (Nat × Nat) → Int) (nC : (Nat × Nat) → Point)
    (step : Int) (y : Nat) (g : JFGrids) (c : Nat × Nat) :
    ((jfRow w h dC nC step y g).1 c
      = if c.1 < w ∧ c.2 = y then (jfCell w h dC nC step c).1 else g.1 c) ∧
    ((jfRow w h dC nC step y g).2 c
      = if c.1 < w ∧ c.2 = y then (jfCell w h dC nC step c).2 else g.2 c) := by
  obtain ⟨h1, h2⟩ := jfRowAux_apply w h dC nC step y (List.range w) g c
  rw [jfRow, h1, h2]
  constructor <;> simp [List.mem_range]

theorem jfRows_apply (w h : Nat) (dC : (Nat × Nat) → Int) (nC : (Nat × Nat) → Point)
    (step : Int) :
    ∀ (rows : List Nat) (g : JFGrids) (c : Nat × Nat),
      ((rows.foldl (fun g2 y => jfRow w h dC nC step y g2) g).1 c
        = if c.2 ∈ rows ∧ c.1 < w then (jfCell w h dC nC step c).1 else g.1 c) ∧
      ((rows.foldl (fun g2 y => jfRow w h dC nC step y g2) g).2 c
        = if c.2 ∈ rows ∧ c.1 < w then (jfCell w h dC nC step c).2 else g.2 c) := by
  intro rows
  induction rows with
  | nil =>
    intro g c
    simp
  | cons y t ih =>
    intro g c
    rw [List.foldl_cons]
    obtain ⟨ih1, ih2⟩ := ih (jfRow w h dC nC step y g) c
    obtain ⟨hr1, hr2⟩ := jfRow_apply w h dC nC step y g c
    rw [ih1, ih2, hr1, hr2]
    by_cases hmem : c.2 ∈ t ∧ c.1 < w
    · have hc : c.2 ∈ y :: t ∧ c.1 < w := ⟨List.mem_cons_of_mem y hmem.1, hmem.2⟩
      rw [if_pos hmem, if_pos hmem, if_pos hc, if_pos hc]
      exact ⟨rfl, rfl⟩
    · rw [if_neg hmem, if_neg hmem]
      by_cases hrow : c.1 < w ∧ c.2 = y
      · have hc : c.2 ∈ y :: t ∧ c.1 < w := ⟨hrow.2 ▸ List.mem_cons_self y t, hrow.1⟩
        rw [if_pos hrow, if_pos hrow, if_pos hc, if_pos hc]
        exact ⟨rfl, rfl⟩
      · rw [if_neg hrow, if_neg hrow]
        have hnotc : ¬(c.2 ∈ y :: t ∧ c.1 < w) := by
          rintro ⟨hc2, hc1⟩
          rcases List.mem_cons.mp hc2 with heq | hmem'
          · exact hrow ⟨hc1, heq⟩
          · exact hmem ⟨hmem', hc1⟩
        rw [if_neg hnotc, if_neg hnotc]
        exact ⟨rfl, rfl⟩

theorem processJumpFlood_some (w h : Nat) (dC : (Nat × Nat) → Int)
    (nC : (Nat × Nat) → Point) (step : Int) (s e : Nat) (he : e ≤ h) (g : JFGrids) :
    processJumpFlood w h dC nC g step s e
      = some ((List.range' s (e - s)).foldl (fun g2 y => jfRow w h dC nC step y g2) g) := by
  rw [processJumpFlood]
  have hall : ∀ y ∈ List.range' s (e - s), y < h := by
    intro y hy
    have := List.mem_range'_1.mp hy
    omega
  revert g
  generalize List.range' s (e - s) = rows at hall ⊢
  induction rows with
  | nil =>
    intro g
    rfl
  | cons y t ih =>
    intro g
    have hy : y < h := hall y (List.mem_cons_self y t)
    rw [List.foldlM_cons, if_pos hy, List.foldl_cons]
    exact ih (fun y' hy' => hall y' (List.mem_cons_of_mem y hy')) _

/-! ### The row partition -/

theorem chunk_mul_le (h n : Nat) (hn1 : 1 ≤ n) (hn2 : n ≤ h + 1) :
    ∀ j, j ≤ n - 1 → j * chunkSize h n ≤ h := by
  intro j hj
  rw [chunkSize]
  by_cases hz : h / n = 0
  · rw [if_pos hz]
    have hlt : h < n := by
      by_contra hge
      have h1 : 1 ≤ h / n := (Nat.one_le_div_iff (by omega)).mpr (by omega)
      omega
    omega
  · rw [if_neg hz]
    calc j * (h / n) ≤ n * (h / n) := Nat.mul_le_mul_right _ (by omega)
      _ = (h / n) * n := Nat.mul_comm _ _
      _ ≤ h := Nat.div_mul_le_self h n

theorem chunkEnd_le (h n : Nat) (hn1 : 1 ≤ n) (hn2 : n ≤ h + 1) :
    ∀ i < n, chunkEnd h n i ≤ h := by
  intro i hi
  rw [chunkEnd]
  by_cases hl : i = n - 1
  · rw [if_pos hl]
  · rw [if_neg hl]
    exact chunk_mul_le h n hn1 hn2 (i + 1) (by omega)

theorem chunkStart_le_end (h n : Nat) (hn1 : 1 ≤ n) (hn2 : n ≤ h + 1) :
    ∀ i < n, chunkStart h n i ≤ chunkEnd h n i := by
  intro i hi
  rw [chunkStart, chunkEnd]
  by_cases hl : i = n - 1
  · rw [if_pos hl, hl]
    exact chunk_mul_le h n hn1 hn2 (n - 1) (Nat.le_refl _)
  · rw [if_neg hl]
    exact Nat.mul_le_mul_right _ (by omega)

theorem jumpFloodPass_char (w h n : Nat) (hn1 : 1 ≤ n) (hn2 : n ≤ h + 1)
    (gr : JFGrids) (step : Int) :
    ∃ gr', jumpFloodPass w h n gr step = some gr' ∧
      (∀ c, gr'.1 c
        = if c.1 < w ∧ c.2 < h then (jfCell w h gr.1 gr.2 step c).1 else gr.1 c) ∧
      (∀ c, gr'.2 c
        = if c.1 < w ∧ c.2 < h then (jfCell w h gr.1 gr.2 step c).2 else gr.2 c) := by
  rw [jumpFloodPass]
  -- invariant: after the first `i` workers the rows `[0, u i)` hold the new
  -- cell values, where `u i` is worker `i`'s start (or `h` once all ran)
  have key : ∀ i ≤ n, ∃ gr',
      ((List.range i).foldlM (fun g j => processJumpFlood w h gr.1 gr.2 g step
          (chunkStart h n j) (chunkEnd h n j)) gr : Option JFGrids) = some gr' ∧
      (∀ c, gr'.1 c = if c.1 < w ∧ c.2 < (if i = n then h else chunkStart h n i)
          then (jfCell w h gr.1 gr.2 step c).1 else gr.1 c) ∧
      (∀ c, gr'.2 c = if c.1 < w ∧ c.2 < (if i = n then h else chunkStart h n i)
          then (jfCell w h gr.1 gr.2 step c).2 else gr.2 c) := by
    intro i
    induction i with
    | zero =>
      intro _
      refine ⟨gr, rfl, ?_, ?_⟩ <;>
        · intro c
          by_cases h0 : (0 : Nat) = n
          · rw [if_neg]
            rintro ⟨-, hc2⟩
            rw [← h0] at hc2
            simp at hc2
            omega
          · rw [if_neg]
            rintro ⟨-, hc2⟩
            simp only [if_neg h0, chunkStart, Nat.zero_mul] at hc2
            omega
    | succ i ih =>
      intro hin
      obtain ⟨gri, hfold, hg1, hg2⟩ := ih (by omega)
      have hile : i < n := by omega
      have hine : i ≠ n := by omega
      rw [List.range_succ, List.foldlM_append, hfold]
      simp only [List.foldlM_cons, List.foldlM_nil, Option.bind_eq_bind, Option.some_bind]
      have hend : chunkEnd h n i ≤ h := chunkEnd_le h n hn1 hn2 i hile
      rw [processJumpFlood_some w h gr.1 gr.2 step _ _ hend gri]
      simp only [Option.some_bind]
      refine ⟨_, rfl, ?_, ?_⟩
      · intro c
        obtain ⟨hrow1, -⟩ := jfRows_apply w h gr.1 gr.2 step
          (List.range' (chunkStart h n i) (chunkEnd h n i - chunkStart h n i)) gri c
        rw [hrow1, hg1 c]
        have hmem : c.2 ∈ List.range' (chunkStart h n i) (chunkEnd h n i - chunkStart h n i)
            ↔ chunkStart h n i ≤ c.2 ∧ c.2 < chunkEnd h n i := by
          rw [List.mem_range'_1]
          have := chunkStart_le_end h n hn1 hn2 i hile
          omega
        have hnext : (if i + 1 = n then h else chunkStart h n (i + 1)) = chunkEnd h n i := by
          by_cases hlast : i + 1 = n
          · rw [if_pos hlast, chunkEnd, if_pos (by omega)]
          · rw [if_neg hlast, chunkEnd, if_neg (by omega), chunkStart]
        have hse : chunkStart h n i ≤ chunkEnd h n i := chunkStart_le_end h n hn1 hn2 i hile
        rw [hnext]
        by_cases hcesa : c.2 ∈ List.range' (chunkStart h n i) (chunkEnd h n i - chunkStart h n i)
        · obtain ⟨hlo, hhi⟩ := hmem.mp hcesa
          by_cases hcw : c.1 < w
          · rw [if_pos ⟨hcesa, hcw⟩, if_pos ⟨hcw, by omega⟩]
          · rw [if_neg (by tauto), if_neg (by tauto), if_neg (by tauto)]
        · rw [if_neg (by tauto)]
          have hns : ¬(chunkStart h n i ≤ c.2 ∧ c.2 < chunkEnd h n i) := fun hcc => hcesa (hmem.mpr hcc)
          simp only [if_neg hine]
          by_cases hcold : c.1 < w ∧ c.2 < chunkStart h n i
          · rw [if_pos hcold, if_pos ⟨hcold.1, by omega⟩]
          · rw [if_neg hcold, if_neg (by
              rintro ⟨hcw, hce⟩
              exact hcold ⟨hcw, by omega⟩)]
      · intro c
        obtain ⟨-, hrow2⟩ := jfRows_apply w h gr.1 gr.2 step
          (List.range' (chunkStart h n i) (chunkEnd h n i - chunkStart h n i)) gri c
        rw [hrow2, hg2 c]
        have hmem : c.2 ∈ List.range' (chunkStart h n i) (chunkEnd h n i - chunkStart h n i)
            ↔ chunkStart h n i ≤ c.2 ∧ c.2 < chunkEnd h n i := by
          rw [List.mem_range'_1]
          have := chunkStart_le_end h n hn1 hn2 i hile
          omega
        have hnext : (if i + 1 = n then h else chunkStart h n (i + 1)) = chunkEnd h n i := by
          by_cases hlast : i + 1 = n
          · rw [if_pos hlast, chunkEnd, if_pos (by omega)]
          · rw [if_neg hlast, chunkEnd, if_neg (by omega), chunkStart]
        have hse : chunkStart h n i ≤ chunkEnd h n i := chunkStart_le_end h n hn1 hn2 i hile
        rw [hnext]
        by_cases hcesa : c.2 ∈ List.range' (chunkStart h n i) (chunkEnd h n i - chunkStart h n i)
        · obtain ⟨hlo, hhi⟩ := hmem.mp hcesa
          by_cases hcw : c.1 < w
          · rw [if_pos ⟨hcesa, hcw⟩, if_pos ⟨hcw, by omega⟩]
          · rw [if_neg (by tauto), if_neg (by tauto), if_neg (by tauto)]
        · rw [if_neg (by tauto)]
          have hns : ¬(chunkStart h n i ≤ c.2 ∧ c.2 < chunkEnd h n i) := fun hcc => hcesa (hmem.mpr hcc)
          simp only [if_neg hine]
          by_cases hcold : c.1 < w ∧ c.2 < chunkStart h n i
          · rw [if_pos hcold, if_pos ⟨hcold.1, by omega⟩]
          · rw [if_neg hcold, if_neg (by
              rintro ⟨hcw, hce⟩
              exact hcold ⟨hcw, by omega⟩)]
  obtain ⟨gr', hfold, hg1, hg2⟩ := key n (Nat.le_refl n)
  refine ⟨gr', hfold, ?_, ?_⟩
  · intro c
    have := hg1 c
    rw [if_pos rfl] at this
    exact this
  · intro c
    have := hg2 c
    rw [if_pos rfl] at this
    exact this

/-! ### The per-pixel fold: basic facts -/

theorem sqDist_nonneg (c : Nat × Nat) (q : Point) : 0 ≤ sqDist c q :=
  add_nonneg (mul_self_nonneg _) (mul_self_nonneg _)

theorem jfCellStep_cases (w h : Nat) (nC : (Nat × Nat) → Point) (c : Nat × Nat)
    (acc : Int × Point) (d : Int × Int) :
    jfCellStep w h nC c acc d = acc ∨
    (nbrInB w h c d = true ∧ (nC (nbrCoord c d)).x ≠ -1 ∧ (nC (nbrCoord c d)).y ≠ -1 ∧
      sqDist c (nC (nbrCoord c d)) < acc.1 ∧
      jfCellStep w h nC c acc d = (sqDist c (nC (nbrCoord c d)), nC (nbrCoord c d))) := by
  rw [jfCellStep]
  by_cases h1 : nbrInB w h c d
  · rw [if_pos h1]
    by_cases h2 : (nC (nbrCoord c d)).x ≠ -1 ∧ (nC (nbrCoord c d)).y ≠ -1
    · rw [if_pos h2]
      by_cases h3 : sqDist c (nC (nbrCoord c d)) < acc.1
      · rw [if_pos h3]
        exact Or.inr ⟨h1, h2.1, h2.2, h3, rfl⟩
      · rw [if_neg h3]
        exact Or.inl rfl
    · rw [if_neg h2]
      exact Or.inl rfl
  · rw [if_neg h1]
    exact Or.inl rfl

/-- Any property of the accumulator that holds initially and for every
candidate entry is preserved by the per-pixel fold. -/
theorem foldl_jfCellStep_pres (w h : Nat) (nC : (Nat × Nat) → Point) (c : Nat × Nat)
    (P : Int × Point → Prop) :
    ∀ (l : List (Int × Int)) (acc : Int × Point), P acc →
      (∀ d ∈ l, nbrInB w h c d = true → (nC (nbrCoord c d)).x ≠ -1 →
        (nC (nbrCoord c d)).y ≠ -1 →
        P (sqDist c (nC (nbrCoord c d)), nC (nbrCoord c d))) →
      P (l.foldl (jfCellStep w h nC c) acc) := by
  intro l
  induction l with
  | nil =>
    intro acc hacc _
    exact hacc
  | cons d t ih =>
    intro acc hacc hcand
    rw [List.foldl_cons]
    have hstep : P (jfCellStep w h nC c acc d) := by
      rcases jfCellStep_cases w h nC c acc d with heq | ⟨hin, hx, hy, _, heq⟩
      · rw [heq]; exact hacc
      · rw [heq]; exact hcand d (List.mem_cons_self d t) hin hx hy
    exact ih _ hstep fun d' hd' => hcand d' (List.mem_cons_of_mem d hd')

/-- The best distance never increases along the per-pixel fold. -/
theorem foldl_jfCellStep_fst_le (w h : Nat) (nC : (Nat × Nat) → Point) (c : Nat × Nat) :
    ∀ (l : List (Int × Int)) (acc : Int × Point),
      (l.foldl (jfCellStep w h nC c) acc).1 ≤ acc.1 := by
  intro l
  induction l with
  | nil => intro acc; exact le_refl _
  | cons d t ih =>
    intro acc
    rw [List.foldl_cons]
    rcases jfCellStep_cases w h nC c acc d with heq | ⟨_, _, _, hlt, heq⟩
    · rw [heq]
      exact ih acc
    · rw [heq]
      exact le_trans (ih _) (le_of_lt hlt)

/-- If no candidate strictly improves the accumulator, the fold is a no-op. -/
theorem foldl_jfCellStep_no_update (w h : Nat) (nC : (Nat × Nat) → Point) (c : Nat × Nat) :
    ∀ (l : List (Int × Int)) (acc : Int × Point),
      (∀ d ∈ l, nbrInB w h c d = true → (nC (nbrCoord c d)).x ≠ -1 →
        (nC (nbrCoord c d)).y ≠ -1 → acc.1 ≤ sqDist c (nC (nbrCoord c d))) →
      l.foldl (jfCellStep w h nC c) acc = acc := by
  intro l
  induction l with
  | nil => intro acc _; rfl
  | cons d t ih =>
    intro acc hcand
    rw [List.foldl_cons]
    have hstep : jfCellStep w h nC c acc d = acc := by
      rcases jfCellStep_cases w h nC c acc d with heq | ⟨hin, hx, hy, hlt, _⟩
      · exact heq
      · exact absurd hlt (not_lt.mpr (hcand d (List.mem_cons_self d t) hin hx hy))
    rw [hstep]
    exact ih acc fun d' hd' => hcand d' (List.mem_cons_of_mem d hd')

/-- The fold result is at least as good as any offered candidate. -/
theorem foldl_jfCellStep_le_candidate (w h : Nat) (nC : (Nat × Nat) → Point) (c : Nat × Nat) :
    ∀ (l : List (Int × Int)) (acc : Int × Point) (d : Int × Int), d ∈ l →
      nbrInB w h c d = true → (nC (nbrCoord c d)).x ≠ -1 → (nC (nbrCoord c d)).y ≠ -1 →
      (l.foldl (jfCellStep w h nC c) acc).1 ≤ sqDist c (nC (nbrCoord c d)) := by
  intro l
  induction l with
  | nil =>
    intro acc d hd
    cases hd
  | cons d0 t ih =>
    intro acc d hd hin hx hy
    rw [List.foldl_cons]
    rcases List.mem_cons.mp hd with rfl | hdt
    · have hstep : (jfCellStep w h nC c acc d).1 ≤ sqDist c (nC (nbrCoord c d)) := by
        rcases jfCellStep_cases w h nC c acc d with heq | ⟨_, _, _, hlt, heq⟩
        · rw [heq]
          rw [jfCellStep, if_pos hin, if_pos ⟨hx, hy⟩] at heq
          by_cases h3 : sqDist c (nC (nbrCoord c d)) < acc.1
          · rw [if_pos h3] at heq
            exact le_of_eq (congrArg Prod.fst heq.symm)
          · exact le_of_not_lt h3
        · rw [heq]
      exact le_trans (foldl_jfCellStep_fst_le w h nC c t _) hstep
    · exact ih _ d hdt hin hx hy

/-! ### The jump-flood invariants -/

/-- A well-formed grid entry: either the unresolved sentinel with the
`maxDistance` placeholder, or an in-bounds opaque source together with its
exact squared distance from this pixel. -/
def jfEntryOK (w h : Nat) (mask : (Nat × Nat) → Bool) (c : Nat × Nat)
    (dv : Int) (q : Point) : Prop :=
  (q = ⟨-1, -1⟩ ∧ dv = maxDistance w h) ∨
  (∃ qx qy : Nat, q = ⟨(qx : Int), (qy : Int)⟩ ∧ qx < w ∧ qy < h ∧
    mask (qx, qy) = true ∧ dv = sqDist c ⟨(qx : Int), (qy : Int)⟩)

/-- The grid invariant of the jump flood: every in-bounds entry is
well-formed, and every masked (opaque) pixel keeps itself at distance 0. -/
def JFInv (w h : Nat) (mask : (Nat × Nat) → Bool) (gr : JFGrids) : Prop :=
  ∀ c : Nat × Nat, c.1 < w → c.2 < h →
    jfEntryOK w h mask c (gr.1 c) (gr.2 c) ∧
    (mask c = true → gr.1 c = 0 ∧ gr.2 c = ⟨(c.1 : Int), (c.2 : Int)⟩)

theorem JFInv_init (w h : Nat) (mask : (Nat × Nat) → Bool) :
    JFInv w h mask (initDist w h mask, initNearest mask) := by
  intro c hc1 hc2
  constructor
  · by_cases hm : mask c
    · refine Or.inr ⟨c.1, c.2, ?_, hc1, hc2, hm, ?_⟩
      · simp [initNearest, hm]
      · simp [initDist, hm, sqDist]
    · simp only [initDist, initNearest, if_neg hm]
      exact Or.inl ⟨rfl, rfl⟩
  · intro hm
    simp [initDist, initNearest, hm]

/-- A resolved entry of a well-formed grid names an in-bounds opaque source. -/
theorem jfEntryOK_resolved {w h : Nat} {mask : (Nat × Nat) → Bool} {c : Nat × Nat}
    {dv : Int} {q : Point} (hok : jfEntryOK w h mask c dv q)
    (hx : q.x ≠ -1) :
    ∃ qx qy : Nat, q = ⟨(qx : Int), (qy : Int)⟩ ∧ qx < w ∧ qy < h ∧
      mask (qx, qy) = true ∧ dv = sqDist c ⟨(qx : Int), (qy : Int)⟩ := by
  rcases hok with ⟨hq, -⟩ | hres
  · exact absurd (by rw [hq]) hx
  · exact hres

/-- One pass preserves the grid invariant (the new entry of every pixel is
either its old entry or a resolved candidate copied from the snapshot). -/
theorem jumpFloodPass_inv (w h n : Nat) (hn1 : 1 ≤ n) (hn2 : n ≤ h + 1)
    (mask : (Nat × Nat) → Bool) (gr : JFGrids) (step : Int)
    (hinv : JFInv w h mask gr) {gr' : JFGrids}
    (hpass : jumpFloodPass w h n gr step = some gr') :
    JFInv w h mask gr' := by
  obtain ⟨gr'', hpass', hp1, hp2⟩ := jumpFloodPass_char w h n hn1 hn2 gr step
  rw [hpass] at hpass'
  obtain rfl : gr' = gr'' := by injection hpass'
  intro c hc1 hc2
  rw [hp1 c, hp2 c, if_pos ⟨hc1, hc2⟩, if_pos ⟨hc1, hc2⟩]
  rw [jfCell]
  constructor
  · refine foldl_jfCellStep_pres w h gr.2 c
      (fun e => jfEntryOK w h mask c e.1 e.2) (jfNbrs step) (gr.1 c, gr.2 c)
      ((hinv c hc1 hc2).1) ?_
    intro d hd hin hx hy
    obtain ⟨hb1, hb2⟩ := nbrInB_bounds hin
    obtain ⟨qx, qy, hq, hqx, hqy, hqm, -⟩ :=
      jfEntryOK_resolved ((hinv (nbrCoord c d) hb1 hb2).1) hx
    exact Or.inr ⟨qx, qy, by rw [hq], hqx, hqy, hqm, by rw [hq]⟩
  · intro hm
    obtain ⟨hd0, hq0⟩ := (hinv c hc1 hc2).2 hm
    have hnoup : (jfNbrs step).foldl (jfCellStep w h gr.2 c) (gr.1 c, gr.2 c)
        = (gr.1 c, gr.2 c) := by
      apply foldl_jfCellStep_no_update
      intro d hd hin hx hy
      rw [hd0]
      exact sqDist_nonneg c _
    rw [hnoup]
    exact ⟨hd0, hq0⟩

/-- The pass loop yields a result under a valid worker count. -/
theorem jumpFloodSteps_some (w h n : Nat) (hn1 : 1 ≤ n) (hn2 : n ≤ h + 1) :
    ∀ (steps : List Nat) (gr : JFGrids),
      ∃ gr', jumpFloodSteps w h n gr steps = some gr' := by
  intro steps
  induction steps with
  | nil =>
    intro gr
    exact ⟨gr, rfl⟩
  | cons s t ih =>
    intro gr
    obtain ⟨g1, hg1, -, -⟩ := jumpFloodPass_char w h n hn1 hn2 gr (s : Int)
    obtain ⟨gr', hgr'⟩ := ih g1
    refine ⟨gr', ?_⟩
    rw [jumpFloodSteps, List.foldlM_cons, hg1]
    simp only [Option.bind_eq_bind, Option.some_bind]
    exact hgr'

/-- The whole pass loop preserves the grid invariant. -/
theorem jumpFloodSteps_inv (w h n : Nat) (hn1 : 1 ≤ n) (hn2 : n ≤ h + 1)
    (mask : (Nat × Nat) → Bool) :
    ∀ (steps : List Nat) (gr : JFGrids), JFInv w h mask gr →
      ∀ gr', jumpFloodSteps w h n gr steps = some gr' → JFInv w h mask gr' := by
  intro steps
  induction steps with
  | nil =>
    intro gr hinv gr' heq
    obtain rfl : gr = gr' := by injection heq
    exact hinv
  | cons s t ih =>
    intro gr hinv gr' heq
    rw [jumpFloodSteps, List.foldlM_cons] at heq
    obtain ⟨g1, hg1, -, -⟩ := jumpFloodPass_char w h n hn1 hn2 gr (s : Int)
    rw [hg1] at heq
    simp only [Option.bind_eq_bind, Option.some_bind] at heq
    exact ih g1 (jumpFloodPass_inv w h n hn1 hn2 mask gr (s : Int) hinv hg1) gr' heq

/-! ### Worker-count independence -/

theorem jumpFloodPass_eq_one (w h n : Nat) (hn1 : 1 ≤ n) (hn2 : n ≤ h + 1)
    (gr : JFGrids) (step : Int) :
    jumpFloodPass w h n gr step = jumpFloodPass w h 1 gr step := by
  obtain ⟨g1, he1, hp1, hq1⟩ := jumpFloodPass_char w h n hn1 hn2 gr step
  obtain ⟨g2, he2, hp2, hq2⟩ := jumpFloodPass_char w h 1 (Nat.le_refl 1) (by omega) gr step
  rw [he1, he2]
  congr 1
  apply Prod.ext
  · funext c
    rw [hp1 c, hp2 c]
  · funext c
    rw [hq1 c, hq2 c]

theorem jumpFloodSteps_eq_one (w h n : Nat) (hn1 : 1 ≤ n) (hn2 : n ≤ h + 1) :
    ∀ (steps : List Nat) (gr : JFGrids),
      jumpFloodSteps w h n gr steps = jumpFloodSteps w h 1 gr steps := by
  intro steps
  induction steps with
  | nil =>
    intro gr
    rfl
  | cons s t ih =>
    intro gr
    rw [jumpFloodSteps, jumpFloodSteps, List.foldlM_cons, List.foldlM_cons,
      jumpFloodPass_eq_one w h n hn1 hn2 gr (s : Int)]
    cases hp : jumpFloodPass w h 1 gr (s : Int) with
    | none => rfl
    | some gr1 =>
      simp only [Option.bind_eq_bind, Option.some_bind]
      exact ih gr1

theorem jumpFlood_eq_one (w h n : Nat) (hn1 : 1 ≤ n) (hn2 : n ≤ h + 1)
    (mask : (Nat × Nat) → Bool) :
    jumpFlood w h n mask = jumpFlood w h 1 mask := by
  rw [jumpFlood, jumpFlood, jumpFloodSteps_eq_one w h n hn1 hn2]

/-! ### Propagation reach: information travels at most the sum of the steps -/

/-- Every resolved nearest-source lies within Chebyshev distance `S` of its
pixel (stated componentwise to stay linear). -/
def ChebInv (w h : Nat) (S : Int) (gr : JFGrids) : Prop :=
  ∀ c : Nat × Nat, c.1 < w → c.2 < h →
    (gr.2 c).x ≠ -1 → (gr.2 c).y ≠ -1 →
    (c.1 : Int) - (gr.2 c).x ≤ S ∧ (gr.2 c).x - (c.1 : Int) ≤ S ∧
    (c.2 : Int) - (gr.2 c).y ≤ S ∧ (gr.2 c).y - (c.2 : Int) ≤ S

theorem ChebInv_init (w h : Nat) (mask : (Nat × Nat) → Bool) :
    ChebInv w h 0 (initDist w h mask, initNearest mask) := by
  intro c hc1 hc2 hx hy
  by_cases hm : mask c
  · simp [initNearest, hm]
  · simp only [initNearest, if_neg hm] at hx
    exact absurd rfl hx

theorem jfNbrs_bounds (s : Int) (hs : 0 ≤ s) :
    ∀ d ∈ jfNbrs s, -s ≤ d.1 ∧ d.1 ≤ s ∧ -s ≤ d.2 ∧ d.2 ≤ s := by
  intro d hd
  simp only [jfNbrs, List.mem_cons, List.not_mem_nil, or_false] at hd
  rcases hd with rfl | rfl | rfl | rfl | rfl | rfl | rfl | rfl <;>
    exact ⟨by omega, by omega, by omega, by omega⟩

theorem nbrCoord_cast {w h : Nat} {c : Nat × Nat} {d : Int × Int}
    (hin : nbrInB w h c d = true) :
    ((nbrCoord c d).1 : Int) = (c.1 : Int) + d.1 ∧
    ((nbrCoord c d).2 : Int) = (c.2 : Int) + d.2 := by
  simp only [nbrInB, Bool.and_eq_true, decide_eq_true_eq] at hin
  simp only [nbrCoord]
  omega

theorem jumpFloodPass_cheb (w h n : Nat) (hn1 : 1 ≤ n) (hn2 : n ≤ h + 1)
    (gr : JFGrids) (s : Nat) (S : Int) (hS : 0 ≤ S)
    (hcheb : ChebInv w h S gr) {gr' : JFGrids}
    (hpass : jumpFloodPass w h n gr (s : Int) = some gr') :
    ChebInv w h (S + (s : Int)) gr' := by
  obtain ⟨gr'', hpass', hp1, hp2⟩ := jumpFloodPass_char w h n hn1 hn2 gr (s : Int)
  rw [hpass] at hpass'
  obtain rfl : gr' = gr'' := by injection hpass'
  intro c hc1 hc2
  rw [hp2 c, if_pos ⟨hc1, hc2⟩]
  rw [jfCell]
  have hs0 : (0 : Int) ≤ (s : Int) := Int.ofNat_nonneg s
  refine foldl_jfCellStep_pres w h gr.2 c
    (fun e => e.2.x ≠ -1 → e.2.y ≠ -1 →
      (c.1 : Int) - e.2.x ≤ S + (s : Int) ∧ e.2.x - (c.1 : Int) ≤ S + (s : Int) ∧
      (c.2 : Int) - e.2.y ≤ S + (s : Int) ∧ e.2.y - (c.2 : Int) ≤ S + (s : Int))
    (jfNbrs (s : Int)) (gr.1 c, gr.2 c) ?_ ?_
  · dsimp only
    intro hx hy
    obtain ⟨b1, b2, b3, b4⟩ := hcheb c hc1 hc2 hx hy
    exact ⟨by omega, by omega, by omega, by omega⟩
  · intro d hd hin hx hy
    dsimp only
    intro _ _
    obtain ⟨hb1, hb2⟩ := nbrInB_bounds hin
    obtain ⟨hcast1, hcast2⟩ := nbrCoord_cast hin
    obtain ⟨o1, o2, o3, o4⟩ := jfNbrs_bounds (s : Int) hs0 d hd
    obtain ⟨b1, b2, b3, b4⟩ := hcheb (nbrCoord c d) hb1 hb2 hx hy
    exact ⟨by omega, by omega, by omega, by omega⟩

theorem jumpFloodSteps_cheb (w h n : Nat) (hn1 : 1 ≤ n) (hn2 : n ≤ h + 1) :
    ∀ (steps : List Nat) (gr : JFGrids) (S : Int), 0 ≤ S → ChebInv w h S gr →
      ∀ gr', jumpFloodSteps w h n gr steps = some gr' →
        ChebInv w h (S + (steps.sum : Int)) gr' := by
  intro steps
  induction steps with
  | nil =>
    intro gr S hS hcheb gr' heq
    obtain rfl : gr = gr' := by injection heq
    simpa using hcheb
  | cons s t ih =>
    intro gr S hS hcheb gr' heq
    rw [jumpFloodSteps, List.foldlM_cons] at heq
    obtain ⟨g1, hg1, -, -⟩ := jumpFloodPass_char w h n hn1 hn2 gr (s : Int)
    rw [hg1] at heq
    simp only [Option.bind_eq_bind, Option.some_bind] at heq
    have h1 := jumpFloodPass_cheb w h n hn1 hn2 gr s S hS hcheb hg1
    have h2 := ih g1 (S + (s : Int)) (by positivity) h1 gr' heq
    have hsum : S + (s : Int) + ((t.sum : Nat) : Int) = S + (((s :: t).sum : Nat) : Int) := by
      rw [List.sum_cons]
      push_cast
      ring
    rw [← hsum]
    exact h2

/-- Squared distance to a different lattice point is at least 1. -/
theorem sqDist_one_le (c : Nat × Nat) (qx qy : Nat) (hne : (qx, qy) ≠ c) :
    1 ≤ sqDist c ⟨(qx : Int), (qy : Int)⟩ := by
  rw [sqDist]
  have hcomp : (c.1 : Int) - (qx : Int) ≠ 0 ∨ (c.2 : Int) - (qy : Int) ≠ 0 := by
    by_contra hcon
    push_neg at hcon
    apply hne
    have h1 : qx = c.1 := by omega
    have h2 : qy = c.2 := by omega
    rw [h1, h2]
  rcases hcomp with hne1 | hne2
  · have h1 := Int.add_one_le_iff.mpr (mul_self_pos.mpr hne1)
    have h2 := mul_self_nonneg ((c.2 : Int) - (qy : Int))
    linarith
  · have h1 := Int.add_one_le_iff.mpr (mul_self_pos.mpr hne2)
    have h2 := mul_self_nonneg ((c.1 : Int) - (qx : Int))
    linarith

/-- Once a transparent pixel's entry reaches squared distance 1, later passes
leave its entry untouched (no strictly better source can exist). -/
theorem jumpFloodSteps_keep_one (w h n : Nat) (hn1 : 1 ≤ n) (hn2 : n ≤ h + 1)
    (mask : (Nat × Nat) → Bool) (p : Nat × Nat)
    (hp1 : p.1 < w) (hp2 : p.2 < h) (hmp : mask p = false) :
    ∀ (steps : List Nat) (gr : JFGrids), JFInv w h mask gr → gr.1 p = 1 →
      ∀ gr', jumpFloodSteps w h n gr steps = some gr' →
        gr'.1 p = 1 ∧ gr'.2 p = gr.2 p := by
  intro steps
  induction steps with
  | nil =>
    intro gr hinv hone gr' heq
    obtain rfl : gr = gr' := by injection heq
    exact ⟨hone, rfl⟩
  | cons s t ih =>
    intro gr hinv hone gr' heq
    rw [jumpFloodSteps, List.foldlM_cons] at heq
    obtain ⟨g1, hg1, hp1', hp2'⟩ := jumpFloodPass_char w h n hn1 hn2 gr (s : Int)
    rw [hg1] at heq
    simp only [Option.bind_eq_bind, Option.some_bind] at heq
    have hcellfix : jfCell w h gr.1 gr.2 (s : Int) p = (gr.1 p, gr.2 p) := by
      rw [jfCell]
      apply foldl_jfCellStep_no_update
      intro d hd hin hx hy
      obtain ⟨hb1, hb2⟩ := nbrInB_bounds hin
      obtain ⟨qx, qy, hq, hqx, hqy, hqm, -⟩ :=
        jfEntryOK_resolved ((hinv (nbrCoord p d) hb1 hb2).1) hx
      rw [hq]
      have hqp : (qx, qy) ≠ p := by
        intro hqqp
        rw [hqqp] at hqm
        rw [hqm] at hmp
        exact Bool.noConfusion hmp
      have h1 := sqDist_one_le p qx qy hqp
      simp only [hone]
      omega
    have hg1fix : g1.1 p = 1 ∧ g1.2 p = gr.2 p := by
      rw [hp1' p, hp2' p, if_pos ⟨hp1, hp2⟩, if_pos ⟨hp1, hp2⟩, hcellfix]
      exact ⟨hone, rfl⟩
    have hinv1 : JFInv w h mask g1 := jumpFloodPass_inv w h n hn1 hn2 mask gr (s : Int) hinv hg1
    obtain ⟨ha, hb⟩ := ih g1 hinv1 hg1fix.1 gr' heq
    exact ⟨ha, hb.trans hg1fix.2⟩

/-! ## Concrete rasters used as test inputs -/

/-- A 1×1 raster whose single pixel is fully transparent. -/
def img1 : Img := ⟨1, 1, fun _ => ⟨0, 0, 0, 0⟩⟩

/-- A 2×1 raster: opaque grey at (0,0), transparent at (1,0). -/
def img21 : Img :=
  ⟨2, 1, fun c => if c = (0, 0) then ⟨9, 9, 9, 255⟩ else ⟨0, 0, 0, 0⟩⟩

/-- A 128×1 raster with a single opaque pixel at the left end. -/
def img128 : Img :=
  ⟨128, 1, fun c => if c = (0, 0) then ⟨9, 9, 9, 255⟩ else ⟨0, 0, 0, 0⟩⟩

/-- A 3×3 raster: transparent centre, all eight neighbours opaque pure red. -/
def img3x3 : Img :=
  ⟨3, 3, fun c => if c = (1, 1) then ⟨0, 0, 0, 0⟩ else ⟨255, 0, 0, 255⟩⟩

/-- The spec's 3×3 scenario: transparent centre, red edge-neighbours, blue
corners. -/
def red3x3 : Img :=
  ⟨3, 3, fun c =>
    if c = (1, 1) then ⟨0, 0, 0, 0⟩
    else if c = (0, 0) ∨ c = (2, 0) ∨ c = (0, 2) ∨ c = (2, 2) then ⟨0, 0, 255, 255⟩
    else ⟨255, 0, 0, 255⟩⟩

/-- A 2×2 fully-opaque raster. -/
def img22 : Img :=
  ⟨2, 2, fun c => if c = (0, 0) then ⟨1, 2, 3, 255⟩ else ⟨7, 8, 9, 255⟩⟩

/-- Alpha of the `process_paint_net_alg` output at one pixel (`none` when the
algorithm panics). -/
def jfpOutAlphaAt (img : Img) (numCpu : Nat) (c : Nat × Nat) : Option Nat :=
  (process_paint_net_alg img numCpu).map fun out => (out c).a

/-! ## The claims -/

theorem img1_iter_fixed :
    ∀ npass, (gimpIter img1 npass).grid = img1.px ∧ (gimpIter img1 npass).rem = 1 := by
  intro npass
  induction npass with
  | zero => exact ⟨rfl, by decide⟩
  | succ k ih =>
    obtain ⟨hg, hr⟩ := ih
    constructor
    · funext c
      by_cases hc : c.1 < img1.width ∧ c.2 < img1.height
      · rw [gimpIter, gimpPass_grid_in _ _ _ hc, hg]
        have hc00 : c = (0, 0) := by
          obtain ⟨cx, cy⟩ := c
          obtain ⟨h1, h2⟩ := hc
          have h1' : cx < 1 := h1
          have h2' : cy < 1 := h2
          have hx : cx = 0 := by omega
          have hy : cy = 0 := by omega
          rw [hx, hy]
        rw [hc00]
        decide
      · rw [gimpIter, gimpPass_grid_notin _ _ _ hc, hg]
    · rw [gimpIter, gimpPass_rem, hr, hg]
      decide

/-- C1 (code_bug): on the all-transparent 1×1 raster the `remaining` counter
of `process_gimp_alg` is 1 after every number of passes, so the loop
`for remaining > 0` never exits — the required non-convergence guard is
missing.  `process_paint_net_alg` alone behaves as the claim says: it
terminates and emits the zero-alpha transparent pixel. -/
theorem c1_all_transparent_divergence (npass : Nat) :
    (gimpIter img1 npass).rem = 1 ∧
    (process_paint_net_alg img1 1).map (fun out => out (0, 0)) = some ⟨0, 0, 0, 0⟩ := by
  refine ⟨(img1_iter_fixed npass).2, ?_⟩
  decide

/-- C3 (counterexample): on a 2×2 raster the jump-flood engine performs
`(jfSteps 2 2).length = 1` pass, not `2 × ceil(log2(max(2,2))) = 2`. -/
theorem c3_counterexample : (jfSteps 2 2).length ≠ 2 * ceilLog2 (max 2 2) := by
  decide

/-- C3 (amended): the jump-flood engine performs exactly
`2 × ceil(log2(max(W,H))) − 1` passes (truncated subtraction: no pass at all
when max(W,H) ≤ 1), one per step value `1, …, maxSteps−1`. -/
theorem c3_pass_count (w h : Nat) :
    (jfSteps w h).length = 2 * ceilLog2 (max w h) - 1 := by
  rw [jfSteps, List.length_range', jfMaxSteps]

/-- C4 (code_bug): with height 1 and 3 workers, worker 1 is assigned the row
range [1, 2), which does not lie within [0, height); on a 2×1 raster the pass
then indexes the distance slice out of range and panics (modelled `none`),
taking the whole algorithm down. -/
theorem c4_worker_range_out_of_bounds :
    chunkStart 1 3 1 = 1 ∧ chunkEnd 1 3 1 = 2 ∧ ¬ chunkEnd 1 3 1 ≤ 1 ∧
    jumpFloodPass 2 1 3 (initDist 2 1 (mkMask img21), initNearest (mkMask img21)) 1
      = none ∧
    process_paint_net_alg img21 3 = none := by
  exact ⟨by decide, by decide, by decide, rfl, rfl⟩

/-- C6 (counterexample): on a 2×1 raster the jump-flood outputs with 3 workers
and with 1 worker are not byte-identical — the 3-worker run panics on an
out-of-bounds row range while the 1-worker run succeeds. -/
theorem c6_counterexample :
    process_paint_net_alg img21 3 ≠ process_paint_net_alg img21 1 := by
  intro hcontra
  have h1 : (process_paint_net_alg img21 1).isSome = true := rfl
  rw [← hcontra] at h1
  have h3 : process_paint_net_alg img21 3 = none := rfl
  rw [h3] at h1
  simp at h1

/-- C6 (amended): for every worker count `N` with `1 ≤ N ≤ height + 1` (so
that every worker's row range stays inside the raster) the jump-flood output
is byte-identical to the 1-worker output, because each pass reads only the
previous pass's frozen snapshot and each worker writes only its own rows. -/
theorem c6_determinism (img : Img) (n : Nat) (hn1 : 1 ≤ n)
    (hn2 : n ≤ img.height + 1) :
    process_paint_net_alg img n = process_paint_net_alg img 1 := by
  rw [process_paint_net_alg, process_paint_net_alg,
    jumpFlood_eq_one img.width img.height n hn1 hn2]

theorem c6_witness :
    1 ≤ 2 ∧ 2 ≤ img22.height + 1 ∧
    process_paint_net_alg img22 2 = process_paint_net_alg img22 1 :=
  ⟨by decide, by decide, c6_determinism img22 2 (by decide) (by decide)⟩

theorem px_eta_opaque {img : Img} {c : Nat × Nat} (hb255 : (img.px c).a = 255)
    (hr : (img.px c).r ≤ 255) (hg : (img.px c).g ≤ 255) (hbb : (img.px c).b ≤ 255) :
    (⟨(img.px c).r * 257 % 256, (img.px c).g * 257 % 256,
      (img.px c).b * 257 % 256, 255⟩ : Pixel) = img.px c := by
  have hrr : (img.px c).r * 257 % 256 = (img.px c).r := by omega
  have hgg : (img.px c).g * 257 % 256 = (img.px c).g := by omega
  have hbbb : (img.px c).b * 257 % 256 = (img.px c).b := by omega
  rw [hrr, hgg, hbbb]
  cases hpx : img.px c with
  | mk pr pg pb pa =>
    rw [hpx] at hb255
    simp only at hb255 ⊢
    rw [hb255]

/-- C7: every opaque input pixel keeps its exact colour through every IA pass
and through the jump-flood output; consequently a raster with no transparent
pixel is returned unchanged (on its bounds) by both algorithms. -/
theorem c7_opaque_preserved (img : Img) (hb : Bounded img) :
    (∀ x y, x < img.width → y < img.height → (img.px (x, y)).a = 255 →
      (∀ k, (gimpIter img k).grid (x, y) = img.px (x, y)) ∧
      (∀ n out, process_paint_net_alg img n = some out → out (x, y) = img.px (x, y))) ∧
    (countTransparent img = 0 →
      gimpTerminatesIn img 0 ∧ (gimpIter img 0).grid = img.px ∧
      ∀ n out, process_paint_net_alg img n = some out →
        ∀ x y, x < img.width → y < img.height → out (x, y) = img.px (x, y)) := by
  have hjfp : ∀ x y, x < img.width → y < img.height → (img.px (x, y)).a = 255 →
      ∀ n out, process_paint_net_alg img n = some out → out (x, y) = img.px (x, y) := by
    intro x y hx hy ha n out hout
    rw [process_paint_net_alg] at hout
    obtain ⟨near, -, hnear⟩ := Option.map_eq_some'.mp hout
    rw [← hnear, jfpOut]
    rw [if_pos ⟨hx, hy⟩, if_pos (by omega)]
    obtain ⟨h1, h2, h3, -⟩ := hb x hx y hy
    exact px_eta_opaque ha h1 h2 h3
  constructor
  · intro x y hx hy ha
    exact ⟨gimpIter_opaque_fixed img hx hy ha, hjfp x y hx hy ha⟩
  · intro hct
    have hopq : ∀ x y, x < img.width → y < img.height → (img.px (x, y)).a = 255 := by
      intro x y hx hy
      rw [countTransparent, List.countP_eq_zero] at hct
      have := hct (x, y) (mem_coordList.mpr ⟨hx, hy⟩)
      simp only [decide_eq_true_eq] at this
      omega
    refine ⟨⟨hct, fun m hm => absurd hm (Nat.not_lt_zero m)⟩, rfl, ?_⟩
    intro n out hout x y hx hy
    exact hjfp x y hx hy (hopq x y hx hy) n out hout

theorem c7_witness :
    Bounded img22 ∧
    ((∀ x y, x < img22.width → y < img22.height → (img22.px (x, y)).a = 255 →
      (∀ k, (gimpIter img22 k).grid (x, y) = img22.px (x, y)) ∧
      (∀ n out, process_paint_net_alg img22 n = some out → out (x, y) = img22.px (x, y))) ∧
    (countTransparent img22 = 0 →
      gimpTerminatesIn img22 0 ∧ (gimpIter img22 0).grid = img22.px ∧
      ∀ n out, process_paint_net_alg img22 n = some out →
        ∀ x y, x < img22.width → y < img22.height → out (x, y) = img22.px (x, y))) :=
  ⟨by decide, c7_opaque_preserved img22 (by decide)⟩

theorem gimp_all_opaque (img : Img)
    (hop : ∃ q : Nat × Nat, q.1 < img.width ∧ q.2 < img.height ∧ (img.px q).a = 255) :
    ∀ c : Nat × Nat, c.1 < img.width → c.2 < img.height →
      ((gimpIter img (gimpD img)).grid c).a = 255 := by
  intro c hc1 hc2
  rw [gimpIter_opaque_iff img (gimpD img) c hc1 hc2,
    opaque_iff_dist4_le img hop hc1 hc2]
  by_cases htr : (img.px c).a = 255
  · have h0 : opaqueWithinB img 0 c = true := by simp [opaqueWithinB, htr]
    exact Nat.le_trans (dist4_le h0) (Nat.zero_le _)
  · apply le_foldr_max
    exact List.mem_map.mpr ⟨c, mem_transparentCoords.mpr ⟨⟨hc1, hc2⟩, htr⟩, rfl⟩

/-- C2 (amended): with at least one opaque pixel, IA terminates with every
in-bounds pixel fully opaque; under JFP every opaque pixel's output is fully
opaque and every output pixel is either fully opaque or the zero-alpha
fallback pixel — but, contrary to the original claim, the fallback can hit
transparent pixels even when the input has opaque pixels
(see `c2_counterexample`). -/
theorem c2_output_alpha (img : Img) (n : Nat) (hn1 : 1 ≤ n)
    (hn2 : n ≤ img.height + 1)
    (hop : ∃ q : Nat × Nat, q.1 < img.width ∧ q.2 < img.height ∧ (img.px q).a = 255) :
    gimpTerminatesIn img (gimpD img) ∧
    (∀ c : Nat × Nat, c.1 < img.width → c.2 < img.height →
      ((gimpIter img (gimpD img)).grid c).a = 255) ∧
    ∃ out, process_paint_net_alg img n = some out ∧
      ∀ c : Nat × Nat, c.1 < img.width → c.2 < img.height →
        ((img.px c).a = 255 → (out c).a = 255) ∧
        ((out c).a = 255 ∨ out c = ⟨0, 0, 0, 0⟩) := by
  refine ⟨gimp_terminates img hop, gimp_all_opaque img hop, ?_⟩
  obtain ⟨gr, hgr⟩ := jumpFloodSteps_some img.width img.height n hn1 hn2
    (jfSteps img.width img.height)
    (initDist img.width img.height (mkMask img), initNearest (mkMask img))
  refine ⟨jfpOut img gr.2, ?_, ?_⟩
  · rw [process_paint_net_alg, jumpFlood, hgr]
    rfl
  · intro c hc1 hc2
    constructor
    · intro ha
      rw [jfpOut, if_pos ⟨hc1, hc2⟩, if_pos (by omega)]
    · rw [jfpOut, if_pos ⟨hc1, hc2⟩]
      by_cases hα : (img.px c).a * 257 = 65535
      · rw [if_pos hα]
        exact Or.inl rfl
      · rw [if_neg hα]
        by_cases hres : (gr.2 c).x ≠ -1 ∧ (gr.2 c).y ≠ -1
        · rw [if_pos hres]
          exact Or.inl rfl
        · rw [if_neg hres]
          exact Or.inr rfl

theorem c2_witness :
    ((1 ≤ 1 ∧ 1 ≤ img21.height + 1) ∧
      ∃ q : Nat × Nat, q.1 < img21.width ∧ q.2 < img21.height ∧ (img21.px q).a = 255) ∧
    (gimpTerminatesIn img21 (gimpD img21) ∧
    (∀ c : Nat × Nat, c.1 < img21.width → c.2 < img21.height →
      ((gimpIter img21 (gimpD img21)).grid c).a = 255) ∧
    ∃ out, process_paint_net_alg img21 1 = some out ∧
      ∀ c : Nat × Nat, c.1 < img21.width → c.2 < img21.height →
        ((img21.px c).a = 255 → (out c).a = 255) ∧
        ((out c).a = 255 ∨ out c = ⟨0, 0, 0, 0⟩)) :=
  ⟨⟨⟨by decide, by decide⟩, ⟨(0, 0), by decide, by decide, by decide⟩⟩,
    c2_output_alpha img21 1 (by decide) (by decide)
      ⟨(0, 0), by decide, by decide, by decide⟩⟩

theorem mask128_unique :
    ∀ qx qy : Nat, mkMask img128 (qx, qy) = true → qx = 0 ∧ qy = 0 := by
  intro qx qy hm
  by_cases hq : ((qx, qy) : Nat × Nat) = (0, 0)
  · exact ⟨congrArg Prod.fst hq, congrArg Prod.snd hq⟩
  · exfalso
    simp only [mkMask, Bool.and_eq_true, decide_eq_true_eq] at hm
    have hpx : img128.px (qx, qy) = ⟨0, 0, 0, 0⟩ := by
      show (if ((qx, qy) : Nat × Nat) = (0, 0) then (⟨9, 9, 9, 255⟩ : Pixel)
        else ⟨0, 0, 0, 0⟩) = ⟨0, 0, 0, 0⟩
      rw [if_neg hq]
    rw [hpx] at hm
    exact absurd hm.2 (by decide)

/-- C2 (counterexample): the 128×1 raster `img128` contains an opaque pixel,
yet the jump-flood output at (127, 0) has zero alpha: the 13 passes use steps
1..13, whose total reach 91 is smaller than the distance 127 to the only
opaque pixel, so (127, 0) stays unresolved and takes the zero-alpha fallback. -/
theorem c2_counterexample :
    (img128.px (0, 0)).a = 255 ∧ jfpOutAlphaAt img128 1 (127, 0) = some 0 := by
  refine ⟨by decide, ?_⟩
  obtain ⟨gr, hgr⟩ := jumpFloodSteps_some img128.width img128.height 1
    (by decide) (by decide) (jfSteps img128.width img128.height)
    (initDist img128.width img128.height (mkMask img128), initNearest (mkMask img128))
  have hinv : JFInv img128.width img128.height (mkMask img128) gr :=
    jumpFloodSteps_inv img128.width img128.height 1 (by decide) (by decide)
      (mkMask img128) _ _ (JFInv_init img128.width img128.height (mkMask img128)) gr hgr
  have hcheb : ChebInv img128.width img128.height
      (0 + ((jfSteps img128.width img128.height).sum : Int)) gr :=
    jumpFloodSteps_cheb img128.width img128.height 1 (by decide) (by decide)
      (jfSteps img128.width img128.height) _ 0 (le_refl 0)
      (ChebInv_init img128.width img128.height (mkMask img128)) gr hgr
  have hsum : (((jfSteps img128.width img128.height).sum : Nat) : Int) = 91 := by decide
  have hunres : (gr.2 (127, 0)).x = -1 := by
    by_contra hx
    obtain ⟨qx, qy, hq, hqx, hqy, hqm, -⟩ :=
      jfEntryOK_resolved ((hinv (127, 0) (by decide) (by decide)).1) hx
    obtain ⟨rfl, rfl⟩ := mask128_unique qx qy hqm
    have hy : (gr.2 (127, 0)).y ≠ -1 := by
      rw [hq]
      decide
    obtain ⟨b1, -, -, -⟩ := hcheb (127, 0) (by decide) (by decide) hx hy
    rw [hq] at b1
    dsimp only at b1
    omega
  have hout : process_paint_net_alg img128 1 = some (jfpOut img128 gr.2) := by
    rw [process_paint_net_alg, jumpFlood, hgr]
    rfl
  rw [jfpOutAlphaAt, hout]
  have hpx : (jfpOut img128 gr.2 (127, 0)).a = 0 := by
    rw [jfpOut, if_pos (by decide), if_neg (by decide),
      if_neg (fun hcon => hcon.1 hunres)]
  rw [Option.map_some']
  rw [hpx]

/-- C8: with at least one opaque pixel the IA pass loop exits after exactly
`gimpD img` passes — the maximum 4-connected distance from any transparent
pixel to its nearest opaque pixel — and after `k` passes exactly the pixels
within 4-connected distance `k` are opaque (each pass fills exactly the next
distance ring). -/
theorem c8_ia_convergence (img : Img)
    (hop : ∃ q : Nat × Nat, q.1 < img.width ∧ q.2 < img.height ∧ (img.px q).a = 255) :
    gimpTerminatesIn img (gimpD img) ∧
    ∀ (k : Nat) (c : Nat × Nat), c.1 < img.width → c.2 < img.height →
      (((gimpIter img k).grid c).a = 255 ↔ dist4 img c ≤ k) := by
  refine ⟨gimp_terminates img hop, ?_⟩
  intro k c hc1 hc2
  rw [gimpIter_opaque_iff img k c hc1 hc2, opaque_iff_dist4_le img hop hc1 hc2]

theorem c8_witness :
    (∃ q : Nat × Nat, q.1 < img21.width ∧ q.2 < img21.height ∧ (img21.px q).a = 255) ∧
    (gimpTerminatesIn img21 (gimpD img21) ∧
    ∀ (k : Nat) (c : Nat × Nat), c.1 < img21.width → c.2 < img21.height →
      (((gimpIter img21 k).grid c).a = 255 ↔ dist4 img21 c ≤ k)) :=
  ⟨⟨(0, 0), by decide, by decide, by decide⟩,
    c8_ia_convergence img21 ⟨(0, 0), by decide, by decide, by decide⟩⟩

/-- C10: after every jump-flood pass every resolved nearest-source entry
names an in-bounds pixel that is opaque in the input, with the exact squared
distance recorded, and every opaque pixel's own entry stays itself at
distance 0 (both part of `JFInv`); hence the colour JFP writes at a resolved
transparent pixel is copied from an opaque pixel of the input. -/
theorem c10_sources_opaque (img : Img) (n : Nat) (hn1 : 1 ≤ n)
    (hn2 : n ≤ img.height + 1) :
    (∀ (k : Nat) (gr : JFGrids),
      jumpFloodSteps img.width img.height n
        (initDist img.width img.height (mkMask img), initNearest (mkMask img))
        ((jfSteps img.width img.height).take k) = some gr →
      JFInv img.width img.height (mkMask img) gr) ∧
    (∀ near, jumpFlood img.width img.height n (mkMask img) = some near →
      ∀ x y, x < img.width → y < img.height → (img.px (x, y)).a ≠ 255 →
        (near (x, y)).x ≠ -1 →
        ∃ qx qy : Nat, near (x, y) = ⟨(qx : Int), (qy : Int)⟩ ∧
          qx < img.width ∧ qy < img.height ∧ (img.px (qx, qy)).a = 255 ∧
          jfpOut img near (x, y) =
            ⟨((img.px (qx, qy)).r * 257) >>> 8 % 256,
             ((img.px (qx, qy)).g * 257) >>> 8 % 256,
             ((img.px (qx, qy)).b * 257) >>> 8 % 256, 255⟩) := by
  constructor
  · intro k gr hgr
    exact jumpFloodSteps_inv img.width img.height n hn1 hn2 (mkMask img) _ _
      (JFInv_init img.width img.height (mkMask img)) gr hgr
  · intro near hnear x y hx hy hα hres
    rw [jumpFlood] at hnear
    obtain ⟨gr, hgr, hgr2⟩ := Option.map_eq_some'.mp hnear
    have hinv : JFInv img.width img.height (mkMask img) gr :=
      jumpFloodSteps_inv img.width img.height n hn1 hn2 (mkMask img) _ _
        (JFInv_init img.width img.height (mkMask img)) gr hgr
    have hres' : (gr.2 (x, y)).x ≠ -1 := by
      rw [hgr2]
      exact hres
    obtain ⟨qx, qy, hq, hqx, hqy, hqm, -⟩ :=
      jfEntryOK_resolved ((hinv (x, y) hx hy).1) hres'
    rw [← hgr2]
    have hqa : (img.px (qx, qy)).a = 255 := by
      simp only [mkMask, Bool.and_eq_true, decide_eq_true_eq] at hqm
      omega
    refine ⟨qx, qy, hq, hqx, hqy, hqa, ?_⟩
    have hqy' : (gr.2 (x, y)).y ≠ -1 := by
      rw [hq]
      dsimp only
      omega
    rw [jfpOut, if_pos ⟨hx, hy⟩, if_neg (by omega), if_pos ⟨hres', hqy'⟩, hq]
    dsimp only
    rw [Int.toNat_natCast, Int.toNat_natCast]

theorem c10_witness :
    (1 ≤ 1 ∧ 1 ≤ img21.height + 1) ∧
    ((∀ (k : Nat) (gr : JFGrids),
      jumpFloodSteps img21.width img21.height 1
        (initDist img21.width img21.height (mkMask img21), initNearest (mkMask img21))
        ((jfSteps img21.width img21.height).take k) = some gr →
      JFInv img21.width img21.height (mkMask img21) gr) ∧
    (∀ near, jumpFlood img21.width img21.height 1 (mkMask img21) = some near →
      ∀ x y, x < img21.width → y < img21.height → (img21.px (x, y)).a ≠ 255 →
        (near (x, y)).x ≠ -1 →
        ∃ qx qy : Nat, near (x, y) = ⟨(qx : Int), (qy : Int)⟩ ∧
          qx < img21.width ∧ qy < img21.height ∧ (img21.px (qx, qy)).a = 255 ∧
          jfpOut img21 near (x, y) =
            ⟨((img21.px (qx, qy)).r * 257) >>> 8 % 256,
             ((img21.px (qx, qy)).g * 257) >>> 8 % 256,
             ((img21.px (qx, qy)).b * 257) >>> 8 % 256, 255⟩)) :=
  ⟨⟨by decide, by decide⟩, c10_sources_opaque img21 1 (by decide) (by decide)⟩

/-- C5: the value an IA pass leaves at an in-bounds pixel depends only on the
pass-start snapshot (updates are simultaneous and traversal-order
independent): a fully-opaque pixel is untouched; a not-fully-opaque pixel
with a gathered neighbour receives the truncating-division mean of the
gathered 16-bit channel samples with alpha forced fully opaque; a
not-fully-opaque pixel with no gathered neighbour is untouched; a neighbour
is gathered iff it is an in-bounds fully-opaque 4-neighbour of the snapshot;
the remaining count drops by the number of filled pixels; and on the spec's
3×3 scenario the centre is filled with exactly (255, 0, 0, 255). -/
theorem c5_pass_semantics (w h : Nat) (st : IASt) (x y : Nat)
    (hx : x < w) (hy : y < h) :
    (((st.grid (x, y)).a = 255 → (gimpPass w h st).grid (x, y) = st.grid (x, y)) ∧
     ((st.grid (x, y)).a ≠ 255 → 0 < (iaGather w h st.grid (x, y)).count →
        (gimpPass w h st).grid (x, y) = iaFillPixel (iaGather w h st.grid (x, y)) ∧
        ((gimpPass w h st).grid (x, y)).a = 255) ∧
     ((st.grid (x, y)).a ≠ 255 → (iaGather w h st.grid (x, y)).count = 0 →
        (gimpPass w h st).grid (x, y) = st.grid (x, y)) ∧
     (0 < (iaGather w h st.grid (x, y)).count ↔
        ∃ d ∈ iaNbrs, nbrInB w h (x, y) d = true ∧
          (st.grid (nbrCoord (x, y) d)).a = 255)) ∧
    (gimpPass w h st).rem = st.rem - (coordList w h).countP (iaFillsB w h st.grid) ∧
    (gimpPass 3 3 (gimpInit red3x3)).grid (1, 1) = ⟨255, 0, 0, 255⟩ := by
  have hcell : (gimpPass w h st).grid (x, y) = iaCellOut w h st.grid (x, y) :=
    gimpPass_grid_in w h st ⟨hx, hy⟩
  refine ⟨⟨?_, ?_, ?_, iaGather_count_pos w h st.grid (x, y)⟩,
    gimpPass_rem w h st, by decide⟩
  · intro hα
    rw [hcell, iaCellOut, if_neg (by simpa using hα)]
  · intro hα hcnt
    rw [hcell, iaCellOut, if_pos hα, if_pos hcnt]
    exact ⟨rfl, rfl⟩
  · intro hα hcnt
    rw [hcell, iaCellOut, if_pos hα, if_neg (by omega)]

theorem c5_witness :
    ((1 : Nat) < 2 ∧ (0 : Nat) < 1) ∧
    ((((gimpInit img21).grid (1, 0)).a = 255 →
        (gimpPass 2 1 (gimpInit img21)).grid (1, 0) = (gimpInit img21).grid (1, 0)) ∧
     (((gimpInit img21).grid (1, 0)).a ≠ 255 →
        0 < (iaGather 2 1 (gimpInit img21).grid (1, 0)).count →
        (gimpPass 2 1 (gimpInit img21)).grid (1, 0)
            = iaFillPixel (iaGather 2 1 (gimpInit img21).grid (1, 0)) ∧
        ((gimpPass 2 1 (gimpInit img21)).grid (1, 0)).a = 255) ∧
     (((gimpInit img21).grid (1, 0)).a ≠ 255 →
        (iaGather 2 1 (gimpInit img21).grid (1, 0)).count = 0 →
        (gimpPass 2 1 (gimpInit img21)).grid (1, 0) = (gimpInit img21).grid (1, 0)) ∧
     (0 < (iaGather 2 1 (gimpInit img21).grid (1, 0)).count ↔
        ∃ d ∈ iaNbrs, nbrInB 2 1 (1, 0) d = true ∧
          ((gimpInit img21).grid (nbrCoord (1, 0) d)).a = 255)) ∧
    (gimpPass 2 1 (gimpInit img21)).rem
        = (gimpInit img21).rem - (coordList 2 1).countP (iaFillsB 2 1 (gimpInit img21).grid) ∧
    (gimpPass 3 3 (gimpInit red3x3)).grid (1, 1) = ⟨255, 0, 0, 255⟩ :=
  ⟨⟨by decide, by decide⟩,
    c5_pass_semantics 2 1 (gimpInit img21) 1 0 (by decide) (by decide)⟩

/-! ### Helpers for the single-isolated-pixel scenario -/

/-- `c` is one of the eight pixels surrounding `p` (Chebyshev distance 1). -/
def isNbr8 (p c : Nat × Nat) : Prop :=
  c ≠ p ∧ (p.1 : Int) - (c.1 : Int) ≤ 1 ∧ (c.1 : Int) - (p.1 : Int) ≤ 1 ∧
    (p.2 : Int) - (c.2 : Int) ≤ 1 ∧ (c.2 : Int) - (p.2 : Int) ≤ 1

instance (p c : Nat × Nat) : Decidable (isNbr8 p c) := by
  unfold isNbr8
  infer_instance

theorem exists_inb_4nbr (w h : Nat) (p : Nat × Nat) (hp1 : p.1 < w) (hp2 : p.2 < h)
    (hsize : 2 ≤ w * h) :
    ∃ d ∈ iaNbrs, nbrInB w h p d = true := by
  have hwh : 2 ≤ w ∨ 2 ≤ h := by
    by_contra hcon
    push_neg at hcon
    have hw1 : w = 1 := by omega
    have hh1 : h = 1 := by omega
    rw [hw1, hh1] at hsize
    omega
  rcases hwh with hw2 | hh2
  · by_cases hpx : p.1 + 1 < w
    · refine ⟨(1, 0), by decide, ?_⟩
      simp only [nbrInB, Bool.and_eq_true, decide_eq_true_eq]
      omega
    · refine ⟨(-1, 0), by decide, ?_⟩
      simp only [nbrInB, Bool.and_eq_true, decide_eq_true_eq]
      omega
  · by_cases hpy : p.2 + 1 < h
    · refine ⟨(0, 1), by decide, ?_⟩
      simp only [nbrInB, Bool.and_eq_true, decide_eq_true_eq]
      omega
    · refine ⟨(0, -1), by decide, ?_⟩
      simp only [nbrInB, Bool.and_eq_true, decide_eq_true_eq]
      omega

theorem nbrCoord_ne_self {w h : Nat} {p : Nat × Nat} {d : Int × Int}
    (hd : d ∈ iaNbrs) (hin : nbrInB w h p d = true) : nbrCoord p d ≠ p := by
  obtain ⟨hc1, hc2⟩ := nbrCoord_cast hin
  simp only [iaNbrs, List.mem_cons, List.not_mem_nil, or_false] at hd
  rcases hd with rfl | rfl | rfl | rfl <;>
    · intro hcc
      rw [hcc] at hc1 hc2
      dsimp only at hc1 hc2
      omega

theorem iaNbrs_nbr8 {w h : Nat} {p : Nat × Nat} {d : Int × Int}
    (hd : d ∈ iaNbrs) (hin : nbrInB w h p d = true) : isNbr8 p (nbrCoord p d) := by
  refine ⟨nbrCoord_ne_self hd hin, ?_⟩
  obtain ⟨hc1, hc2⟩ := nbrCoord_cast hin
  simp only [iaNbrs, List.mem_cons, List.not_mem_nil, or_false] at hd
  rcases hd with rfl | rfl | rfl | rfl <;>
    · dsimp only at hc1 hc2
      exact ⟨by omega, by omega, by omega, by omega⟩

theorem iaNbrs_subset_jfNbrs1 : ∀ d ∈ iaNbrs, d ∈ jfNbrs 1 := by
  decide

theorem sqDist_nbr4 {w h : Nat} {p : Nat × Nat} {d : Int × Int}
    (hd : d ∈ iaNbrs) (hin : nbrInB w h p d = true) :
    sqDist p ⟨((nbrCoord p d).1 : Int), ((nbrCoord p d).2 : Int)⟩ = 1 := by
  obtain ⟨hc1, hc2⟩ := nbrCoord_cast hin
  rw [sqDist]
  dsimp only
  rw [hc1, hc2]
  simp only [iaNbrs, List.mem_cons, List.not_mem_nil, or_false] at hd
  rcases hd with rfl | rfl | rfl | rfl <;>
    · dsimp only
      ring

theorem sqDist_one_nbr8 (p : Nat × Nat) (qx qy : Nat)
    (hsq : sqDist p ⟨(qx : Int), (qy : Int)⟩ = 1) : isNbr8 p (qx, qy) := by
  rw [sqDist] at hsq
  dsimp only at hsq
  constructor
  · intro hq
    have h1 : qx = p.1 := congrArg Prod.fst hq
    have h2 : qy = p.2 := congrArg Prod.snd hq
    rw [h1, h2] at hsq
    simp at hsq
  · refine ⟨?_, ?_, ?_, ?_⟩
    · nlinarith [mul_self_nonneg ((p.2 : Int) - (qy : Int)),
        mul_self_nonneg (((p.1 : Int) - (qx : Int)) - 1)]
    · nlinarith [mul_self_nonneg ((p.2 : Int) - (qy : Int)),
        mul_self_nonneg (((p.1 : Int) - (qx : Int)) + 1)]
    · nlinarith [mul_self_nonneg ((p.1 : Int) - (qx : Int)),
        mul_self_nonneg (((p.2 : Int) - (qy : Int)) - 1)]
    · nlinarith [mul_self_nonneg ((p.1 : Int) - (qx : Int)),
        mul_self_nonneg (((p.2 : Int) - (qy : Int)) + 1)]

theorem maxDistance_ge2 {w h : Nat} (hw : 1 ≤ w) (hh : 1 ≤ h) :
    (2 : Int) ≤ maxDistance w h := by
  rw [maxDistance]
  have h1 : 1 ≤ w * w := Nat.mul_le_mul hw hw
  have h2 : 1 ≤ h * h := Nat.mul_le_mul hh hh
  have : 2 ≤ w * w + h * h := by omega
  exact_mod_cast this

theorem chan_roundtrip (v : Nat) (hv : v ≤ 255) : (v * 257) >>> 8 % 256 = v := by
  rw [Nat.shiftRight_eq_div_pow]
  have hpow : (2 : Nat) ^ 8 = 256 := rfl
  rw [hpow]
  have h1 : v * 257 / 256 = v := by omega
  rw [h1]
  omega

theorem countP_eq_one_of_unique {α : Type} [DecidableEq α] :
    ∀ (l : List α), l.Nodup → ∀ (p : α → Bool) (a : α), a ∈ l →
      (∀ b ∈ l, p b = true ↔ b = a) → l.countP p = 1 := by
  intro l
  induction l with
  | nil =>
    intro _ p a ha
    cases ha
  | cons b t ih =>
    intro hnd p a ha hp
    rw [List.countP_cons]
    rcases List.mem_cons.mp ha with rfl | hat
    · have hpa : p a = true := (hp a (List.mem_cons_self a t)).mpr rfl
      have ht0 : t.countP p = 0 := by
        rw [List.countP_eq_zero]
        intro c hc hpc
        have hca := (hp c (List.mem_cons_of_mem a hc)).mp hpc
        rw [hca] at hc
        exact (List.nodup_cons.mp hnd).1 hc
      rw [ht0, hpa, if_pos rfl]
    · have hpb : p b = false := by
        cases hbool : p b with
        | false => rfl
        | true =>
          have hba := (hp b (List.mem_cons_self b t)).mp hbool
          exfalso
          apply (List.nodup_cons.mp hnd).1
          rw [hba]
          exact hat
      rw [hpb]
      have := ih (List.nodup_cons.mp hnd).2 p a hat
        fun c hc => hp c (List.mem_cons_of_mem b hc)
      rw [this]
      simp

theorem firstTrueAux_ge (P : Nat → Bool) :
    ∀ (fuel k : Nat), k ≤ firstTrueAux P k fuel := by
  intro fuel
  induction fuel with
  | zero =>
    intro k
    exact Nat.le_refl _
  | succ fuel ih =>
    intro k
    rw [firstTrueAux]
    by_cases hp : P k
    · rw [if_pos hp]
    · rw [if_neg hp]
      exact Nat.le_trans (by omega) (ih (k + 1))

theorem ceilLog2_pos {m : Nat} (hm : 2 ≤ m) : 1 ≤ ceilLog2 m := by
  rw [ceilLog2]
  obtain ⟨m', rfl⟩ : ∃ m', m = m' + 1 := ⟨m - 1, by omega⟩
  rw [firstTrueAux, if_neg (by simp; omega)]
  exact firstTrueAux_ge _ _ _

theorem jfSteps_cons (w h : Nat) (hmax : 2 ≤ max w h) :
    ∃ rest, jfSteps w h = 1 :: rest := by
  rw [jfSteps]
  have h1 : 1 ≤ ceilLog2 (max w h) := ceilLog2_pos hmax
  obtain ⟨k, hk⟩ : ∃ k, jfMaxSteps w h - 1 = k + 1 :=
    ⟨jfMaxSteps w h - 2, by rw [jfMaxSteps]; omega⟩
  rw [hk]
  exact ⟨List.range' 2 k, rfl⟩

theorem c9_ia_half (img : Img) (p : Nat × Nat) (cr cg cb : Nat)
    (hcr : cr ≤ 255) (hcg : cg ≤ 255) (hcb : cb ≤ 255)
    (hsize : 2 ≤ img.width * img.height)
    (hp1 : p.1 < img.width) (hp2 : p.2 < img.height)
    (huniq : ∀ c : Nat × Nat, c.1 < img.width → c.2 < img.height →
      ((img.px c).a ≠ 255 ↔ c = p))
    (hcolor : ∀ c : Nat × Nat, c.1 < img.width → c.2 < img.height → isNbr8 p c →
      (img.px c).r = cr ∧ (img.px c).g = cg ∧ (img.px c).b = cb) :
    gimpTerminatesIn img 1 ∧ (gimpIter img 1).grid p = ⟨cr, cg, cb, 255⟩ := by
  have hpa : (img.px p).a ≠ 255 := (huniq p hp1 hp2).mpr rfl
  -- the gathered neighbours all carry the common colour
  have hall : ∀ d ∈ iaNbrs, nbrInB img.width img.height p d = true →
      (img.px (nbrCoord p d)).a = 255 →
      (img.px (nbrCoord p d)).r = cr ∧ (img.px (nbrCoord p d)).g = cg ∧
        (img.px (nbrCoord p d)).b = cb := by
    intro d hd hin _
    obtain ⟨hb1, hb2⟩ := nbrInB_bounds hin
    exact hcolor (nbrCoord p d) hb1 hb2 (iaNbrs_nbr8 hd hin)
  have hgth := gather_foldl_const img.width img.height img.px p cr cg cb iaNbrs
    ⟨0, 0, 0, 0⟩ hall (Nat.zero_mul _).symm (Nat.zero_mul _).symm (Nat.zero_mul _).symm
  obtain ⟨d0, hd0, hin0⟩ := exists_inb_4nbr img.width img.height p hp1 hp2 hsize
  obtain ⟨hb1, hb2⟩ := nbrInB_bounds hin0
  have hq0a : (img.px (nbrCoord p d0)).a = 255 := by
    by_contra hcon
    exact nbrCoord_ne_self hd0 hin0 ((huniq _ hb1 hb2).mp hcon)
  have hcnt : 0 < (iaGather img.width img.height img.px p).count :=
    (iaGather_count_pos img.width img.height img.px p).mpr ⟨d0, hd0, hin0, hq0a⟩
  have hfill : iaFillPixel (iaGather img.width img.height img.px p) = ⟨cr, cg, cb, 255⟩ :=
    iaFillPixel_const _ cr cg cb hcr hcg hcb hcnt hgth.1 hgth.2.1 hgth.2.2
  have hginit : (gimpInit img).grid = img.px := rfl
  have hcount1 : countTransparent img = 1 := by
    rw [countTransparent]
    apply countP_eq_one_of_unique _ (nodup_coordList _ _) _ p (mem_coordList.mpr ⟨hp1, hp2⟩)
    intro b hb
    obtain ⟨hbb1, hbb2⟩ := mem_coordList.mp hb
    simp only [decide_eq_true_eq]
    rw [← huniq b hbb1 hbb2]
    omega
  have hfill1 : (coordList img.width img.height).countP
      (iaFillsB img.width img.height img.px) = 1 := by
    apply countP_eq_one_of_unique _ (nodup_coordList _ _) _ p (mem_coordList.mpr ⟨hp1, hp2⟩)
    intro b hb
    obtain ⟨hbb1, hbb2⟩ := mem_coordList.mp hb
    simp only [iaFillsB, Bool.and_eq_true, decide_eq_true_eq]
    constructor
    · rintro ⟨hba, -⟩
      exact (huniq b hbb1 hbb2).mp hba
    · rintro rfl
      exact ⟨hpa, hcnt⟩
  have hrem1 : (gimpIter img 1).rem = 0 := by
    show (gimpPass img.width img.height (gimpInit img)).rem = 0
    rw [gimpPass_rem, hginit, hfill1]
    show countTransparent img - 1 = 0
    rw [hcount1]
  constructor
  · refine ⟨hrem1, ?_⟩
    intro m hm
    obtain rfl : m = 0 := by omega
    show countTransparent img ≠ 0
    rw [hcount1]
    omega
  · show (gimpPass img.width img.height (gimpInit img)).grid p = _
    rw [gimpPass_grid_in img.width img.height (gimpInit img) ⟨hp1, hp2⟩, hginit,
      iaCellOut, if_pos hpa, if_pos hcnt, hfill]

theorem c9_jfp_half (img : Img) (n : Nat) (p : Nat × Nat) (cr cg cb : Nat)
    (hcr : cr ≤ 255) (hcg : cg ≤ 255) (hcb : cb ≤ 255)
    (hn1 : 1 ≤ n) (hn2 : n ≤ img.height + 1)
    (hsize : 2 ≤ img.width * img.height)
    (hp1 : p.1 < img.width) (hp2 : p.2 < img.height)
    (huniq : ∀ c : Nat × Nat, c.1 < img.width → c.2 < img.height →
      ((img.px c).a ≠ 255 ↔ c = p))
    (hcolor : ∀ c : Nat × Nat, c.1 < img.width → c.2 < img.height → isNbr8 p c →
      (img.px c).r = cr ∧ (img.px c).g = cg ∧ (img.px c).b = cb) :
    ∃ out, process_paint_net_alg img n = some out ∧ out p = ⟨cr, cg, cb, 255⟩ := by
  have hpa : (img.px p).a ≠ 255 := (huniq p hp1 hp2).mpr rfl
  have hw1 : 1 ≤ img.width := by omega
  have hh1 : 1 ≤ img.height := by omega
  have hmax2 : 2 ≤ max img.width img.height := by
    have h2 : 2 ≤ img.width ∨ 2 ≤ img.height := by
      by_contra hcon
      push_neg at hcon
      have hww : img.width = 1 := by omega
      have hhh : img.height = 1 := by omega
      rw [hww, hhh] at hsize
      omega
    rcases h2 with h2 | h2
    · exact le_trans h2 (Nat.le_max_left _ _)
    · exact le_trans h2 (Nat.le_max_right _ _)
  obtain ⟨rest, hsteps⟩ := jfSteps_cons img.width img.height hmax2
  have hmaskp : mkMask img p = false := by
    have h257 : (img.px p).a * 257 ≠ 65535 := by omega
    simp [mkMask, h257]
  obtain ⟨gr1, hg1, hchar1, hchar2⟩ := jumpFloodPass_char img.width img.height n hn1 hn2
    (initDist img.width img.height (mkMask img), initNearest (mkMask img)) ((1 : Nat) : Int)
  dsimp only at hchar1 hchar2
  have hinv1 : JFInv img.width img.height (mkMask img) gr1 :=
    jumpFloodPass_inv img.width img.height n hn1 hn2 (mkMask img) _ ((1 : Nat) : Int)
      (JFInv_init img.width img.height (mkMask img)) hg1
  obtain ⟨d0, hd0, hin0⟩ := exists_inb_4nbr img.width img.height p hp1 hp2 hsize
  have hd0mem : d0 ∈ jfNbrs ((1 : Nat) : Int) := by
    have hcast : ((1 : Nat) : Int) = 1 := by norm_num
    rw [hcast]
    exact iaNbrs_subset_jfNbrs1 d0 hd0
  obtain ⟨hb1, hb2⟩ := nbrInB_bounds hin0
  have hq0a : (img.px (nbrCoord p d0)).a = 255 := by
    by_contra hcon
    exact nbrCoord_ne_self hd0 hin0 ((huniq _ hb1 hb2).mp hcon)
  have hq0mask : mkMask img (nbrCoord p d0) = true := by
    have h257 : (img.px (nbrCoord p d0)).a * 257 = 65535 := by rw [hq0a]
    simp [mkMask, hb1, hb2, h257]
  have hq0near : initNearest (mkMask img) (nbrCoord p d0)
      = ⟨((nbrCoord p d0).1 : Int), ((nbrCoord p d0).2 : Int)⟩ := by
    rw [initNearest, if_pos hq0mask]
  have hupper : (jfCell img.width img.height (initDist img.width img.height (mkMask img))
      (initNearest (mkMask img)) ((1 : Nat) : Int) p).1 ≤ 1 := by
    rw [jfCell]
    have hle := foldl_jfCellStep_le_candidate img.width img.height
      (initNearest (mkMask img)) p (jfNbrs ((1 : Nat) : Int))
      (initDist img.width img.height (mkMask img) p, initNearest (mkMask img) p)
      d0 hd0mem hin0
      (by rw [hq0near]; dsimp only; omega) (by rw [hq0near]; dsimp only; omega)
    rw [hq0near, sqDist_nbr4 hd0 hin0] at hle
    exact hle
  have hdle : gr1.1 p ≤ 1 := by
    rw [hchar1 p, if_pos ⟨hp1, hp2⟩]
    exact hupper
  obtain ⟨qx, qy, hq, hqx, hqy, hqm, hdv⟩ :
      ∃ qx qy : Nat, gr1.2 p = ⟨(qx : Int), (qy : Int)⟩ ∧ qx < img.width ∧
        qy < img.height ∧ mkMask img (qx, qy) = true ∧
        gr1.1 p = sqDist p ⟨(qx : Int), (qy : Int)⟩ := by
    rcases (hinv1 p hp1 hp2).1 with ⟨hu, hd⟩ | hres
    · exfalso
      rw [hd] at hdle
      have := maxDistance_ge2 hw1 hh1
      omega
    · exact hres
  have hqnep : ((qx, qy) : Nat × Nat) ≠ p := by
    intro hpq
    rw [hpq, hmaskp] at hqm
    exact Bool.noConfusion hqm
  have hd1 : gr1.1 p = 1 := by
    have hge := sqDist_one_le p qx qy hqnep
    linarith [hdv, hge, hdle]
  have hsq1 : sqDist p ⟨(qx : Int), (qy : Int)⟩ = 1 := by
    rw [← hdv]
    exact hd1
  have hnbr8 : isNbr8 p (qx, qy) := sqDist_one_nbr8 p qx qy hsq1
  obtain ⟨grF, hgrF⟩ := jumpFloodSteps_some img.width img.height n hn1 hn2 rest gr1
  obtain ⟨hkeep1, hkeep2⟩ := jumpFloodSteps_keep_one img.width img.height n hn1 hn2
    (mkMask img) p hp1 hp2 hmaskp rest gr1 hinv1 hd1 grF hgrF
  have hflood : jumpFloodSteps img.width img.height n
      (initDist img.width img.height (mkMask img), initNearest (mkMask img))
      (jfSteps img.width img.height) = some grF := by
    rw [hsteps, jumpFloodSteps, List.foldlM_cons, hg1]
    simp only [Option.bind_eq_bind, Option.some_bind]
    exact hgrF
  refine ⟨jfpOut img grF.2, ?_, ?_⟩
  · rw [process_paint_net_alg, jumpFlood, hflood]
    rfl
  · have hnear : grF.2 p = ⟨(qx : Int), (qy : Int)⟩ := by
      rw [hkeep2, hq]
    obtain ⟨hc_r, hc_g, hc_b⟩ := hcolor (qx, qy) hqx hqy hnbr8
    rw [jfpOut, if_pos ⟨hp1, hp2⟩, if_neg (by omega),
      if_pos (by rw [hnear]; dsimp only; omega), hnear]
    dsimp only
    rw [Int.toNat_natCast, Int.toNat_natCast, hc_r, hc_g, hc_b,
      chan_roundtrip cr hcr, chan_roundtrip cg hcg, chan_roundtrip cb hcb]

/-- C9: on an image whose single not-fully-opaque pixel `p` is surrounded by
identically-coloured opaque neighbours, IA (after its single pass) and JFP
produce the same fill colour at `p` — the common neighbour colour with full
alpha. -/
theorem c9_cross_algorithm (img : Img) (n : Nat) (p : Nat × Nat) (cr cg cb : Nat)
    (hb : Bounded img) (hn1 : 1 ≤ n) (hn2 : n ≤ img.height + 1)
    (hsize : 2 ≤ img.width * img.height)
    (hp1 : p.1 < img.width) (hp2 : p.2 < img.height)
    (huniq : ∀ c : Nat × Nat, c.1 < img.width → c.2 < img.height →
      ((img.px c).a ≠ 255 ↔ c = p))
    (hcolor : ∀ c : Nat × Nat, c.1 < img.width → c.2 < img.height → isNbr8 p c →
      (img.px c).r = cr ∧ (img.px c).g = cg ∧ (img.px c).b = cb) :
    gimpTerminatesIn img 1 ∧
    ∃ out, process_paint_net_alg img n = some out ∧
      (gimpIter img 1).grid p = out p ∧ out p = ⟨cr, cg, cb, 255⟩ := by
  have hbounds : cr ≤ 255 ∧ cg ≤ 255 ∧ cb ≤ 255 := by
    obtain ⟨d0, hd0, hin0⟩ := exists_inb_4nbr img.width img.height p hp1 hp2 hsize
    obtain ⟨hb1, hb2⟩ := nbrInB_bounds hin0
    obtain ⟨hc_r, hc_g, hc_b⟩ := hcolor (nbrCoord p d0) hb1 hb2 (iaNbrs_nbr8 hd0 hin0)
    obtain ⟨hr255, hg255, hb255, -⟩ := hb (nbrCoord p d0).1 hb1 (nbrCoord p d0).2 hb2
    rw [← hc_r, ← hc_g, ← hc_b]
    exact ⟨hr255, hg255, hb255⟩
  obtain ⟨hcr, hcg, hcb⟩ := hbounds
  obtain ⟨hterm, hia⟩ := c9_ia_half img p cr cg cb hcr hcg hcb hsize hp1 hp2 huniq hcolor
  obtain ⟨out, hout, hval⟩ := c9_jfp_half img n p cr cg cb hcr hcg hcb hn1 hn2 hsize
    hp1 hp2 huniq hcolor
  exact ⟨hterm, out, hout, by rw [hia, hval], hval⟩

theorem c9_witness :
    gimpTerminatesIn img3x3 1 ∧
    ∃ out, process_paint_net_alg img3x3 1 = some out ∧
      (gimpIter img3x3 1).grid (1, 1) = out (1, 1) ∧ out (1, 1) = ⟨255, 0, 0, 255⟩ :=
  c9_cross_algorithm img3x3 1 (1, 1) 255 0 0 (by decide) (by decide) (by decide)
    (by decide) (by decide) (by decide)
    (by
      intro c h1 h2
      obtain ⟨x, y⟩ := c
      have hx : x < 3 := h1
      have hy : y < 3 := h2
      interval_cases x <;> interval_cases y <;> decide)
    (by
      intro c h1 h2 h8
      obtain ⟨x, y⟩ := c
      have hx : x < 3 := h1
      have hy : y < 3 := h2
      revert h8
      interval_cases x <;> interval_cases y <;> decide)
